import Mathlib

/-!
# SimpleVector (simple-vector/simple_vector.h)

A shallow embedding of the `SimpleVector<Type>` class template and the
free comparison operators of `simple_vector.h`, followed by theorems about it.

Modelling conventions.

* A vector object is a record of its three data members `items_`, `size_`,
  `capacity_`.  The heap array owned by `items_` is a list of slots; the
  number of allocated slots is the length of that list and is *not* tied to
  `capacity_` by the type: the tie is the representation invariant
  `items_.length = capacity_`, stated as a hypothesis where it is needed.
* `size_t` values are natural numbers: a vector whose capacity does not fit
  in half the range of `size_t` would need an array larger than the address
  space, so `capacity_ * 2` is the product.  Iterators are offsets from
  `begin()`; an iterator before `begin()` has no counterpart.
* Every access to a slot that is outside the allocated array, and every
  failed `assert`, is undefined behaviour in the source; here it is the
  result `Except.error Fault.undefined_behaviour`.  The exception thrown by
  `At` is `Except.error Fault.out_of_range`.  Allocation failure is not modelled.
* Elements are values.  What a default-initialised slot of `new Type[n]`
  contains and what a moved-from element contains are left open: they are the
  fields `indeterminate` and `movedFrom` of the class `Element`.
* The parameter `value` of `Insert` is a reference: `ValueRef` says whether it
  refers to an object outside the vector's array or to a slot of that array,
  and the members read it where the source reads it.  `PushBack(const Type&)`
  assigns from `value` before it changes anything `value` can refer to, so its
  argument is the value read.
* For the claim on independent storage the same members are also run on a free
  store (`Heap`), where a vector object holds the address of its array.
-/

namespace SimpleVectorModel

/-- The two ways a call can fail to return normally. -/
inductive Fault where
  | out_of_range
  | undefined_behaviour
  deriving DecidableEq, Repr

/-- What the container needs to know about its element type `Type`:
`dflt` is the value-initialised `Type{}`, `indeterminate` is what a slot of a
default-initialised array `new Type[n]` holds before it is assigned, and
`movedFrom x` is what is left in an object holding `x` after it was moved from. -/
class Element (T : Type) where
  dflt : T
  indeterminate : T
  movedFrom : T → T

/-- Elements of type `int`: `int{}` is `0`; moving from an `int` leaves it
unchanged; the content of an unassigned slot is arbitrary, here `-1`. -/
instance instElementInt : Element Int where
  dflt := 0
  indeterminate := -1
  movedFrom := fun x => x

section Buffer

variable {T : Type}

/-- Reading slot `i` of a heap array (`raw_ptr_[i]` as an rvalue). -/
def readAt (buf : List T) (i : Nat) : Except Fault T :=
  match buf[i]? with
  | some x => Except.ok x
  | none => Except.error Fault.undefined_behaviour

/-- Assigning to slot `i` of a heap array (`raw_ptr_[i] = x`). -/
def writeAt (buf : List T) (i : Nat) (x : T) : Except Fault (List T) :=
  if i < buf.length then Except.ok (buf.set i x) else Except.error Fault.undefined_behaviour

/-- Modelled from the spec: `array_ptr.h` is not among the sources.  The spec
(section 6) says of the buffer abstraction: "Allocate a buffer holding exactly
N default-constructed slots of T (N ≥ 0; N = 0 yields an empty/unallocated
buffer)".  This is `ArrayPtr<Type>(size_t)`. -/
def ArrayPtr_ofSize [Element T] (n : Nat) : List T :=
  List.replicate n Element.dflt

/-- Modelled from the spec: the move constructor of `ArrayPtr` (`array_ptr.h`
is not among the sources).  The spec says of a moved vector: "take the source's
buffer, length, and capacity by transfer; source becomes empty
(`length = capacity = 0`, no buffer)".  The result is the array of the new
owner and the array left to `other`. -/
def ArrayPtr_move (other : List T) : List T × List T :=
  (other, [])

/-- Modelled from the spec: `ArrayPtr::swap` (`array_ptr.h` is not among the
sources), "an O(1) ownership swap with another buffer instance".  The result is
the array of `*this` and the array of `other` after the call. -/
def ArrayPtr_swap (this other : List T) : List T × List T :=
  (other, this)

/-- The expression `new Type[n]` handed to `ArrayPtr<Type>(Type*)`: an array of
`n` default-initialised slots. -/
def newArray [Element T] (n : Nat) : List T :=
  List.replicate n Element.indeterminate

/-- The loop of `std::copy(first, last, d_first)` when the source range lies in
the array `src` and the destination in a different array `dst`; `n` is the
number of iterations left, `last - first`:
`while (first != last) *d_first++ = *first++;` -/
def copyLoop (src : List T) : Nat → Nat → Nat → List T → Except Fault (List T)
  | 0, _, _, dst => Except.ok dst
  | n + 1, first, d_first, dst => do
    let x ← readAt src first
    let dst1 ← writeAt dst d_first x
    copyLoop src n (first + 1) (d_first + 1) dst1

/-- The algorithm `std::copy(first, last, d_first)` from array `src` into array
`dst`.  It is also `std::move(first, last, d_first)` in the places where the
source array is released right after the call (the residue left in the source
is then never seen). -/
def std_copy (src : List T) (first last : Nat) (dst : List T) (d_first : Nat) :
    Except Fault (List T) :=
  if first ≤ last then copyLoop src (last - first) first d_first dst
  else Except.error Fault.undefined_behaviour

/-- The loop of `std::copy_backward(first, last, d_last)` from array `src`
into a different array `dst`:
`while (first != last) *(--d_last) = *(--last);` -/
def copyBackwardLoop (src : List T) : Nat → Nat → Nat → List T → Except Fault (List T)
  | 0, _, _, dst => Except.ok dst
  | n + 1, last, d_last, dst =>
    match last, d_last with
    | l + 1, d + 1 => do
      let x ← readAt src l
      let dst1 ← writeAt dst d x
      copyBackwardLoop src n l d dst1
    | _, _ => Except.error Fault.undefined_behaviour

/-- The algorithm `std::copy_backward(first, last, d_last)` from array `src`
into array `dst`. -/
def std_copy_backward (src : List T) (first last : Nat) (dst : List T) (d_last : Nat) :
    Except Fault (List T) :=
  if first ≤ last then copyBackwardLoop src (last - first) last d_last dst
  else Except.error Fault.undefined_behaviour

/-- The loop of `std::move(first, last, d_first)` from array `src` into a
different array `dst`, keeping track of both arrays: every element read is left
moved-from in `src`.  The result is `src` and `dst` after the loop. -/
def moveLoop [Element T] : Nat → Nat → Nat → List T → List T → Except Fault (List T × List T)
  | 0, _, _, src, dst => Except.ok (src, dst)
  | n + 1, first, d_first, src, dst => do
    let x ← readAt src first
    let dst1 ← writeAt dst d_first x
    let src1 ← writeAt src first (Element.movedFrom x)
    moveLoop n (first + 1) (d_first + 1) src1 dst1

/-- The algorithm `std::move(first, last, d_first)` from array `src` into array
`dst`: the two arrays after the call. -/
def std_move [Element T] (src : List T) (first last : Nat) (dst : List T) (d_first : Nat) :
    Except Fault (List T × List T) :=
  if first ≤ last then moveLoop (last - first) first d_first src dst
  else Except.error Fault.undefined_behaviour

/-- The loop of `std::move_backward(first, last, d_last)` from array `src` into a
different array `dst`, keeping track of both arrays. -/
def moveBackwardLoop [Element T] :
    Nat → Nat → Nat → List T → List T → Except Fault (List T × List T)
  | 0, _, _, src, dst => Except.ok (src, dst)
  | n + 1, last, d_last, src, dst =>
    match last, d_last with
    | l + 1, d + 1 => do
      let x ← readAt src l
      let dst1 ← writeAt dst d x
      let src1 ← writeAt src l (Element.movedFrom x)
      moveBackwardLoop n l d src1 dst1
    | _, _ => Except.error Fault.undefined_behaviour

/-- The algorithm `std::move_backward(first, last, d_last)` from array `src` into
array `dst`: the two arrays after the call. -/
def std_move_backward [Element T] (src : List T) (first last : Nat) (dst : List T)
    (d_last : Nat) : Except Fault (List T × List T) :=
  if first ≤ last then moveBackwardLoop (last - first) last d_last src dst
  else Except.error Fault.undefined_behaviour

/-- What the reference parameter `value` of `Insert` is bound to: an object that
is not stored in the vector's array and holds `x`, or the slot `j` of the array
the vector owns when the call is made (as in `v.Insert(pos, v[j])`). -/
inductive ValueRef (T : Type) where
  | external (x : T)
  | slot (j : Nat)
  deriving DecidableEq, Repr

/-- Reading through the reference `value` when the array it may refer to
holds `arr`. -/
def readRef (arr : List T) : ValueRef T → Except Fault T
  | ValueRef.external x => Except.ok x
  | ValueRef.slot j => readAt arr j

/-- What `std::move(value)` as the source of an assignment leaves behind in
the array `arr`: the object `value` refers to is moved-from; an object outside
the array is no part of `arr`. -/
def moveFromRef [Element T] (arr : List T) (x : T) : ValueRef T → Except Fault (List T)
  | ValueRef.external _ => Except.ok arr
  | ValueRef.slot j => writeAt arr j (Element.movedFrom x)

/-- The loop of `std::copy_backward` (`mv = false`) and `std::move_backward`
(`mv = true`) when source and destination lie in the same array `buf`.  A move
leaves `movedFrom x` in the slot it read. -/
def backwardWithinLoop [Element T] (mv : Bool) : Nat → Nat → Nat → List T → Except Fault (List T)
  | 0, _, _, buf => Except.ok buf
  | n + 1, last, d_last, buf =>
    match last, d_last with
    | l + 1, d + 1 => do
      let x ← readAt buf l
      let buf1 ← writeAt buf d x
      let buf2 ← if mv then writeAt buf1 l (Element.movedFrom x) else Except.ok buf1
      backwardWithinLoop mv n l d buf2
    | _, _ => Except.error Fault.undefined_behaviour

/-- The algorithm `std::copy_backward(first, last, d_last)` inside one array. -/
def std_copy_backward_within [Element T] (buf : List T) (first last d_last : Nat) :
    Except Fault (List T) :=
  if first ≤ last then backwardWithinLoop false (last - first) last d_last buf
  else Except.error Fault.undefined_behaviour

/-- The algorithm `std::move_backward(first, last, d_last)` inside one array. -/
def std_move_backward_within [Element T] (buf : List T) (first last d_last : Nat) :
    Except Fault (List T) :=
  if first ≤ last then backwardWithinLoop true (last - first) last d_last buf
  else Except.error Fault.undefined_behaviour

/-- The loop of `std::move(first, last, d_first)` when source and destination
lie in the same array `buf`: `while (first != last) *d_first++ = std::move(*first++);` -/
def moveWithinLoop [Element T] : Nat → Nat → Nat → List T → Except Fault (List T)
  | 0, _, _, buf => Except.ok buf
  | n + 1, first, d_first, buf => do
    let x ← readAt buf first
    let buf1 ← writeAt buf d_first x
    let buf2 ← writeAt buf1 first (Element.movedFrom x)
    moveWithinLoop n (first + 1) (d_first + 1) buf2

/-- The algorithm `std::move(first, last, d_first)` inside one array. -/
def std_move_within [Element T] (buf : List T) (first last d_first : Nat) :
    Except Fault (List T) :=
  if first ≤ last then moveWithinLoop (last - first) first d_first buf
  else Except.error Fault.undefined_behaviour

/-- The loop `for (i = first; i < last; ++i) buf[i] = x;`, which is both
`std::fill(first, last, x)` and the `for` loops of `Resize`; `n` is the number
of iterations left. -/
def fillLoop : Nat → Nat → T → List T → Except Fault (List T)
  | 0, _, _, buf => Except.ok buf
  | n + 1, i, x, buf => do
    let buf1 ← writeAt buf i x
    fillLoop n (i + 1) x buf1

/-- The algorithm `std::fill(first, last, x)`; with `first > last` the range is empty for
the `for (i = first; i < last; ++i)` reading used by `Resize`. -/
def fillRange (buf : List T) (first last : Nat) (x : T) : Except Fault (List T) :=
  fillLoop (last - first) first x buf

end Buffer

/-- The data members of `SimpleVector<Type>`: the heap array owned by `items_`
(one list entry per allocated slot), `size_` and `capacity_`. -/
structure SimpleVector (T : Type) where
  items_ : List T
  size_ : Nat
  capacity_ : Nat
  deriving DecidableEq, Repr

namespace SimpleVector

variable {T : Type}

/-- The constructor `SimpleVector() noexcept = default`: no array, `size_ = 0`, `capacity_ = 0`. -/
def empty : SimpleVector T :=
  ⟨[], 0, 0⟩

/-- The member `GetSize()`. -/
def GetSize (v : SimpleVector T) : Nat :=
  v.size_

/-- The member `GetCapacity()`. -/
def GetCapacity (v : SimpleVector T) : Nat :=
  v.capacity_

/-- The member `IsEmpty()`. -/
def IsEmpty (v : SimpleVector T) : Bool :=
  v.size_ == 0

/-- The iterator `begin()` / `cbegin()` as an offset. -/
def begin_ (_v : SimpleVector T) : Nat :=
  0

/-- The iterator `end()` / `cend()` as an offset: `items_.Get() + size_`. -/
def end_ (v : SimpleVector T) : Nat :=
  v.size_

/-- The elements a user can see: slots `[0, size_)` of the array. -/
def live (v : SimpleVector T) : List T :=
  v.items_.take v.size_

/-- The constructor `SimpleVector(size_t size, const Type& value)`. -/
def ofSizeValue [Element T] (size : Nat) (value : T) : Except Fault (SimpleVector T) := do
  let items ← fillRange (ArrayPtr_ofSize size) 0 size value
  pure ⟨items, size, size⟩

/-- The constructor `explicit SimpleVector(size_t size)`, which delegates to
`SimpleVector(size, Type{})`. -/
def ofSize [Element T] (size : Nat) : Except Fault (SimpleVector T) :=
  ofSizeValue size Element.dflt

/-- The constructor `SimpleVector(std::initializer_list<Type> init)`. -/
def ofList [Element T] (init : List T) : Except Fault (SimpleVector T) := do
  let items ← std_copy init 0 init.length (ArrayPtr_ofSize init.length) 0
  pure ⟨items, init.length, init.length⟩

/-- The copy constructor `SimpleVector(const SimpleVector& other)`. -/
def copy [Element T] (other : SimpleVector T) : Except Fault (SimpleVector T) := do
  let items ← std_copy other.items_ 0 other.size_ (ArrayPtr_ofSize other.size_) 0
  pure ⟨items, other.size_, other.size_⟩

/-- The move constructor `SimpleVector(SimpleVector&& other)`: the new object
and the state `other` is left in (`std::exchange(other.size_, 0)`,
`std::exchange(other.capacity_, 0)`). -/
def moveCtor (other : SimpleVector T) : SimpleVector T × SimpleVector T :=
  (⟨(ArrayPtr_move other.items_).1, other.size_, other.capacity_⟩,
   ⟨(ArrayPtr_move other.items_).2, 0, 0⟩)

/-- The member `swap(SimpleVector& other)`: the new `*this` and the new `other`. -/
def swap (v other : SimpleVector T) : SimpleVector T × SimpleVector T :=
  (⟨(ArrayPtr_swap v.items_ other.items_).1, other.size_, other.capacity_⟩,
   ⟨(ArrayPtr_swap v.items_ other.items_).2, v.size_, v.capacity_⟩)

/-- The read through `operator[]` (both overloads): `assert(index < size_)`, then `items_[index]`. -/
def index (v : SimpleVector T) (i : Nat) : Except Fault T :=
  if i < v.size_ then readAt v.items_ i else Except.error Fault.undefined_behaviour

/-- The assignment `v[index] = x` through the reference returned by the mutable `operator[]`. -/
def assignAt (v : SimpleVector T) (i : Nat) (x : T) : Except Fault (SimpleVector T) :=
  if i < v.size_ then do
    let items ← writeAt v.items_ i x
    pure ⟨items, v.size_, v.capacity_⟩
  else Except.error Fault.undefined_behaviour

/-- The member `At(index)` (both overloads): the value returned or the exception
thrown, together with the state of the vector after the call. -/
def At (v : SimpleVector T) (i : Nat) : Except Fault T × SimpleVector T :=
  if i ≥ v.size_ then (Except.error Fault.out_of_range, v)
  else (readAt v.items_ i, v)

/-- The member `Clear()`. -/
def Clear (v : SimpleVector T) : SimpleVector T :=
  ⟨v.items_, 0, v.capacity_⟩

/-- The member `Resize(new_size)`. -/
def Resize [Element T] (v : SimpleVector T) (new_size : Nat) : Except Fault (SimpleVector T) :=
  if new_size = v.size_ then pure v
  else if new_size < v.capacity_ then do
    let items ← fillRange v.items_ v.size_ new_size Element.dflt
    pure ⟨items, new_size, v.capacity_⟩
  else do
    let new_arr_for_vector ← std_copy v.items_ 0 v.size_ (ArrayPtr_ofSize new_size) 0
    let items ← fillRange new_arr_for_vector v.size_ new_size Element.dflt
    pure ⟨items, new_size, new_size⟩

/-- The member `PushBack(const Type& value)`. -/
def PushBack [Element T] (v : SimpleVector T) (value : T) : Except Fault (SimpleVector T) :=
  if v.size_ < v.capacity_ then do
    let items ← writeAt v.items_ v.size_ value
    pure ⟨items, v.size_ + 1, v.capacity_⟩
  else do
    let new_capacity := if v.capacity_ = 0 then 1 else v.capacity_ * 2
    let new_arr_for_vector ← std_copy v.items_ 0 v.size_ (newArray new_capacity) 0
    let items ← writeAt new_arr_for_vector v.size_ value
    pure ⟨items, v.size_ + 1, new_capacity⟩

/-- The member `PushBack(Type&& value)`: as the copying overload with
`std::move` in place of `std::copy`; the old array is released on return. -/
def PushBackMove [Element T] (v : SimpleVector T) (value : T) : Except Fault (SimpleVector T) :=
  if v.size_ < v.capacity_ then do
    let items ← writeAt v.items_ v.size_ value
    pure ⟨items, v.size_ + 1, v.capacity_⟩
  else do
    let new_capacity := if v.capacity_ = 0 then 1 else v.capacity_ * 2
    let new_arr_for_vector ← std_copy v.items_ 0 v.size_ (newArray new_capacity) 0
    let items ← writeAt new_arr_for_vector v.size_ value
    pure ⟨items, v.size_ + 1, new_capacity⟩

/-- The member `Insert(ConstIterator pos, const Type& value)`; `pos` is the
offset of the iterator from `cbegin()`, the result is the new state and the
offset of the returned iterator.  `value` is read where the source reads it:
after `std::copy_backward` when there is room (from the shifted array), before
the swap when the vector is full (from the old array, which `std::copy` left
as it was). -/
def Insert [Element T] (v : SimpleVector T) (pos : Nat) (value : ValueRef T) :
    Except Fault (SimpleVector T × Nat) :=
  if pos ≤ v.size_ then
    let pos_element := pos
    if v.size_ < v.capacity_ then do
      let items1 ← std_copy_backward_within v.items_ pos v.size_ (v.size_ + 1)
      let x ← readRef items1 value
      let items ← writeAt items1 pos_element x
      pure (⟨items, v.size_ + 1, v.capacity_⟩, pos_element)
    else do
      let new_capacity := if v.capacity_ = 0 then 1 else v.capacity_ * 2
      let arr1 ← std_copy v.items_ 0 pos (newArray new_capacity) 0
      let arr2 ← std_copy_backward v.items_ pos v.size_ arr1 (v.size_ + 1)
      let x ← readRef v.items_ value
      let arr3 ← writeAt arr2 pos_element x
      pure (⟨arr3, v.size_ + 1, new_capacity⟩, pos_element)
  else Except.error Fault.undefined_behaviour

/-- The member `Insert(ConstIterator pos, Type&& value)`.  `value` is read
after `std::move_backward` when there is room, and after both `std::move` and
`std::move_backward` have moved from the old array when the vector is full;
the assignment from `std::move(value)` leaves the object `value` refers to
moved-from (in the full branch that object lies in the old array, which is
released on return). -/
def InsertMove [Element T] (v : SimpleVector T) (pos : Nat) (value : ValueRef T) :
    Except Fault (SimpleVector T × Nat) :=
  if pos ≤ v.size_ then
    let pos_element := pos
    if v.size_ < v.capacity_ then do
      let items1 ← std_move_backward_within v.items_ pos v.size_ (v.size_ + 1)
      let x ← readRef items1 value
      let items2 ← writeAt items1 pos_element x
      let items ← moveFromRef items2 x value
      pure (⟨items, v.size_ + 1, v.capacity_⟩, pos_element)
    else do
      let new_capacity := if v.capacity_ = 0 then 1 else v.capacity_ * 2
      let (old1, arr1) ← std_move v.items_ 0 pos (newArray new_capacity) 0
      let (old2, arr2) ← std_move_backward old1 pos v.size_ arr1 (v.size_ + 1)
      let x ← readRef old2 value
      let arr3 ← writeAt arr2 pos_element x
      pure (⟨arr3, v.size_ + 1, new_capacity⟩, pos_element)
  else Except.error Fault.undefined_behaviour

/-- The reference `value` refers to an object that exists when a member of `v`
is called with it: any object outside the array, or a slot of the array of `v`. -/
def Admits (v : SimpleVector T) : ValueRef T → Prop
  | ValueRef.external _ => True
  | ValueRef.slot j => j < v.items_.length

/-- The member `PopBack()`: `assert(!IsEmpty()); --size_;`. -/
def PopBack (v : SimpleVector T) : Except Fault (SimpleVector T) :=
  if v.size_ = 0 then Except.error Fault.undefined_behaviour
  else pure ⟨v.items_, v.size_ - 1, v.capacity_⟩

/-- The member `Erase(ConstIterator pos)`: the new state and the offset of the
returned iterator. -/
def Erase [Element T] (v : SimpleVector T) (pos : Nat) : Except Fault (SimpleVector T × Nat) :=
  if pos < v.size_ then do
    let pos_element := pos
    let items ← std_move_within v.items_ (pos + 1) v.size_ pos_element
    pure (⟨items, v.size_ - 1, v.capacity_⟩, pos_element)
  else Except.error Fault.undefined_behaviour

/-- The member `Reserve(new_capacity)`. -/
def Reserve [Element T] (v : SimpleVector T) (new_capacity : Nat) : Except Fault (SimpleVector T) :=
  if new_capacity > v.capacity_ then do
    let tmp_items ← ofSize new_capacity
    let items ← std_copy v.items_ 0 v.size_ tmp_items.items_ 0
    pure (swap v ⟨items, v.size_, tmp_items.capacity_⟩).1
  else pure v

/-- The constructor `SimpleVector(ReserveProxyObj obj)`: default member
initialisers, then `Reserve(obj.GetSize())`. -/
def ofReserve [Element T] (capacity_to_reserve : Nat) : Except Fault (SimpleVector T) :=
  Reserve empty capacity_to_reserve

/-- The copy assignment `operator=(const SimpleVector& rhs)`; `same` says
whether `this == &rhs`. -/
def copyAssign [Element T] (v rhs : SimpleVector T) (same : Bool) : Except Fault (SimpleVector T) :=
  if !same then do
    let swap_vector ← copy rhs
    pure (swap v swap_vector).1
  else pure v

/-- The move assignment `operator=(SimpleVector&& rhs)`; `same` says whether
`this == &rhs`; the result is the new `*this` and the new `rhs`. -/
def moveAssign (v rhs : SimpleVector T) (same : Bool) : SimpleVector T × SimpleVector T :=
  if !same then swap v rhs else (v, rhs)

/-- The loop of `std::equal(first1, last1, first2)` over two arrays, `n`
iterations left. -/
def equalLoop [BEq T] (a b : List T) : Nat → Nat → Nat → Except Fault Bool
  | 0, _, _ => Except.ok true
  | n + 1, first1, first2 => do
    let x ← readAt a first1
    let y ← readAt b first2
    if x == y then equalLoop a b n (first1 + 1) (first2 + 1) else Except.ok false

/-- The free `operator==`. -/
def eq [BEq T] (lhs rhs : SimpleVector T) : Except Fault Bool :=
  if lhs.GetSize != rhs.GetSize then Except.ok false
  else equalLoop lhs.items_ rhs.items_ lhs.size_ 0 0

/-- A run of `PushBack(const Type&)` calls on one vector, one call per entry of
`values`, in list order. -/
def pushAll [Element T] (v : SimpleVector T) : List T → Except Fault (SimpleVector T)
  | [] => Except.ok v
  | x :: rest => do
    let v1 ← PushBack v x
    pushAll v1 rest

/-- The states of vector objects that a program can reach: the results of the
seven constructors, and the results of every mutating member called on reachable
objects that returns normally (a call whose `assert` fails does not return). -/
inductive Reachable [Element T] : SimpleVector T → Prop
  | default_ctor : Reachable empty
  | reserve_ctor (c : Nat) (r : SimpleVector T) : ofReserve c = Except.ok r → Reachable r
  | size_ctor (n : Nat) (r : SimpleVector T) : ofSize n = Except.ok r → Reachable r
  | size_value_ctor (n : Nat) (x : T) (r : SimpleVector T) :
      ofSizeValue n x = Except.ok r → Reachable r
  | list_ctor (init : List T) (r : SimpleVector T) : ofList init = Except.ok r → Reachable r
  | copy_ctor (other r : SimpleVector T) : Reachable other → copy other = Except.ok r → Reachable r
  | move_ctor_new (other : SimpleVector T) : Reachable other → Reachable (moveCtor other).1
  | move_ctor_source (other : SimpleVector T) : Reachable other → Reachable (moveCtor other).2
  | push_back (v : SimpleVector T) (x : T) (r : SimpleVector T) :
      Reachable v → PushBack v x = Except.ok r → Reachable r
  | push_back_move (v : SimpleVector T) (x : T) (r : SimpleVector T) :
      Reachable v → PushBackMove v x = Except.ok r → Reachable r
  | insert (v : SimpleVector T) (pos : Nat) (value : ValueRef T) (r : SimpleVector T) (it : Nat) :
      Reachable v → Insert v pos value = Except.ok (r, it) → Reachable r
  | insert_move (v : SimpleVector T) (pos : Nat) (value : ValueRef T) (r : SimpleVector T)
      (it : Nat) : Reachable v → InsertMove v pos value = Except.ok (r, it) → Reachable r
  | erase (v : SimpleVector T) (pos : Nat) (r : SimpleVector T) (it : Nat) :
      Reachable v → Erase v pos = Except.ok (r, it) → Reachable r
  | pop_back (v r : SimpleVector T) : Reachable v → PopBack v = Except.ok r → Reachable r
  | resize (v : SimpleVector T) (n : Nat) (r : SimpleVector T) :
      Reachable v → Resize v n = Except.ok r → Reachable r
  | reserve (v : SimpleVector T) (c : Nat) (r : SimpleVector T) :
      Reachable v → Reserve v c = Except.ok r → Reachable r
  | clear (v : SimpleVector T) : Reachable v → Reachable (Clear v)
  | assign_at (v : SimpleVector T) (i : Nat) (x : T) (r : SimpleVector T) :
      Reachable v → assignAt v i x = Except.ok r → Reachable r
  | swap_this (v other : SimpleVector T) : Reachable v → Reachable other → Reachable (swap v other).1
  | swap_other (v other : SimpleVector T) : Reachable v → Reachable other → Reachable (swap v other).2
  | copy_assign (v rhs : SimpleVector T) (same : Bool) (r : SimpleVector T) :
      Reachable v → Reachable rhs → copyAssign v rhs same = Except.ok r → Reachable r
  | move_assign_this (v rhs : SimpleVector T) (same : Bool) :
      Reachable v → Reachable rhs → Reachable (moveAssign v rhs same).1
  | move_assign_rhs (v rhs : SimpleVector T) (same : Bool) :
      Reachable v → Reachable rhs → Reachable (moveAssign v rhs same).2

/-- The capacities that a run of `PushBack` calls from the empty vector passes
through: `0` while nothing was pushed, then the least power of two that is at
least the size. -/
def DoublingInv (v : SimpleVector T) : Prop :=
  (v.size_ = 0 → v.capacity_ = 0) ∧
  (1 ≤ v.size_ → ∃ e, v.capacity_ = 2 ^ e ∧ v.size_ ≤ 2 ^ e ∧ ∀ j, v.size_ ≤ 2 ^ j → 2 ^ e ≤ 2 ^ j)

/-- The loop of `std::lexicographical_compare(first1, last1, first2, last2)`
over two arrays, `n` iterations left (the loop runs while both ranges are not
exhausted), followed by its final `return (first1 == last1) && (first2 != last2);`. -/
def lexicographicalLoop [LT T] [DecidableRel (fun x y : T => x < y)] (a b : List T)
    (last1 last2 : Nat) : Nat → Nat → Nat → Except Fault Bool
  | 0, first1, first2 => Except.ok (decide (first1 = last1) && decide (first2 ≠ last2))
  | n + 1, first1, first2 => do
    let x ← readAt a first1
    let y ← readAt b first2
    if x < y then Except.ok true
    else if y < x then Except.ok false
    else lexicographicalLoop a b last1 last2 n (first1 + 1) (first2 + 1)

/-- The free `operator<`: `std::lexicographical_compare(lhs.begin(), lhs.end(),
rhs.begin(), rhs.end())`. -/
def lt [LT T] [DecidableRel (fun x y : T => x < y)] (lhs rhs : SimpleVector T) :
    Except Fault Bool :=
  lexicographicalLoop lhs.items_ rhs.items_ lhs.end_ rhs.end_
    (min (lhs.end_ - lhs.begin_) (rhs.end_ - rhs.begin_)) lhs.begin_ rhs.begin_

/-- The free `operator<=`: `!(rhs < lhs)`. -/
def le [LT T] [DecidableRel (fun x y : T => x < y)] (lhs rhs : SimpleVector T) :
    Except Fault Bool := do
  let r ← lt rhs lhs
  pure (!r)

/-- The free `operator>`: `rhs < lhs`. -/
def gt [LT T] [DecidableRel (fun x y : T => x < y)] (lhs rhs : SimpleVector T) :
    Except Fault Bool :=
  lt rhs lhs

/-- The free `operator>=`: `!(lhs < rhs)`. -/
def ge [LT T] [DecidableRel (fun x y : T => x < y)] (lhs rhs : SimpleVector T) :
    Except Fault Bool := do
  let r ← lt lhs rhs
  pure (!r)

/-- Element-wise equality of two sequences under the element `==`, as far as
the shorter one reaches. -/
def allEqual [BEq T] : List T → List T → Bool
  | x :: xs, y :: ys => (x == y) && allEqual xs ys
  | _, _ => true

/-- The lexicographic comparison of two sequences under the element `<`: the
first position where one element is less than the other decides, and a
sequence that runs out first is the smaller one. -/
def lexLess [LT T] [DecidableRel (fun x y : T => x < y)] : List T → List T → Bool
  | [], [] => false
  | [], _ :: _ => true
  | _ :: _, [] => false
  | x :: xs, y :: ys => if x < y then true else if y < x then false else lexLess xs ys

/-- Two states of a vector that a user cannot tell apart: the same size, the
same capacity and the same elements at the indices `[0, size)`; the slots from
`size` on may differ. -/
def Agree (v w : SimpleVector T) : Prop :=
  v.size_ = w.size_ ∧ v.capacity_ = w.capacity_ ∧ v.live = w.live

end SimpleVector

/-- An element type whose `==` is not reflexive, in the manner of `double`:
numbers, and a not-a-number value that compares unequal to everything, itself
included. -/
inductive Dbl where
  | num (n : Int)
  | nan
  deriving Repr

/-- The operator `==` of `Dbl`: numbers compare by value, `nan == x` and
`x == nan` are false. -/
instance instBEqDbl : BEq Dbl where
  beq a b :=
    match a, b with
    | Dbl.num x, Dbl.num y => x == y
    | _, _ => false

/-- Elements of type `Dbl`: the value-initialised element is the number `0`;
moving from an element leaves it unchanged. -/
instance instElementDbl : Element Dbl where
  dflt := Dbl.num 0
  indeterminate := Dbl.num 0
  movedFrom := fun x => x

section FreeStore

variable {T : Type}

/-- The free store: entry `p` is the array allocated at address `p`, and `none`
once that array was released. -/
abbrev Heap (T : Type) : Type :=
  List (Option (List T))

/-- A vector object on the free store: `items_` is the address its `ArrayPtr`
holds (`none` for the null pointer, which owns no array), with the members
`size_` and `capacity_`. -/
structure VectorObject where
  items_ : Option Nat
  size_ : Nat
  capacity_ : Nat
  deriving DecidableEq, Repr

/-- The array an `ArrayPtr` holding `address` gives access to; an address whose
array was released, or was never allocated, is a dangling pointer. -/
def arrayAt (heap : Heap T) : Option Nat → Except Fault (List T)
  | none => Except.ok []
  | some p =>
    match heap[p]? with
    | some (some arr) => Except.ok arr
    | _ => Except.error Fault.undefined_behaviour

/-- Modelled from the spec: allocation by `ArrayPtr` (`array_ptr.h` is not among
the sources), "Allocate a buffer holding exactly N ... slots of T (N ≥ 0; N = 0
yields an empty/unallocated buffer)".  A new array gets an address no array had
before; the result is the free store and the address. -/
def allocate (heap : Heap T) (arr : List T) : Heap T × Option Nat :=
  if arr.length = 0 then (heap, none) else (heap ++ [some arr], some heap.length)

/-- Writing the content `arr` into the array at `address`. -/
def store (heap : Heap T) : Option Nat → List T → Heap T
  | none, _ => heap
  | some p, arr => heap.set p (some arr)

/-- Modelled from the spec: the destructor of `ArrayPtr` (`array_ptr.h` is not
among the sources), "Release all owned storage when the owning scope ends". -/
def release (heap : Heap T) : Option Nat → Heap T
  | none => heap
  | some p => heap.set p none

/-- The state of a vector object as the members of `SimpleVector` see it: the
array at its address, its size and its capacity. -/
def view (heap : Heap T) (o : VectorObject) : Except Fault (SimpleVector T) := do
  let arr ← arrayAt heap o.items_
  pure ⟨arr, o.size_, o.capacity_⟩

/-- A member that works in the array the object already owns: the array at the
address of the object gets the content `op` computes, the address stays. -/
def inPlace (op : SimpleVector T → Except Fault (SimpleVector T)) (heap : Heap T)
    (o : VectorObject) : Except Fault (Heap T × VectorObject) := do
  let v ← view heap o
  let r ← op v
  pure (store heap o.items_ r.items_, ⟨o.items_, r.size_, r.capacity_⟩)

/-- A member that builds a new array (`ArrayPtr<Type> new_arr_for_vector(...)`),
fills it, swaps it into `items_` and lets the old array be released at the end
of the scope: the content `op` computes goes to a new address, the old address
is released. -/
def reallocating (op : SimpleVector T → Except Fault (SimpleVector T)) (heap : Heap T)
    (o : VectorObject) : Except Fault (Heap T × VectorObject) := do
  let v ← view heap o
  let r ← op v
  let fresh := allocate heap r.items_
  pure (release fresh.1 o.items_, ⟨fresh.2, r.size_, r.capacity_⟩)

/-- The copy constructor on the free store: `items_(other.size_)` allocates a
new array, `std::copy` fills it from the array of `other`; `other` is not
written to.  The result is the free store and the new object. -/
def copyOnHeap [Element T] (heap : Heap T) (other : VectorObject) :
    Except Fault (Heap T × VectorObject) := do
  let v ← view heap other
  let c ← SimpleVector.copy v
  let fresh := allocate heap c.items_
  pure (fresh.1, ⟨fresh.2, c.size_, c.capacity_⟩)

/-- The member `PushBack(const Type&)` on the free store: in place when
`size_ < capacity_`, through a new array otherwise. -/
def PushBackOnHeap [Element T] (heap : Heap T) (o : VectorObject) (value : T) :
    Except Fault (Heap T × VectorObject) :=
  if o.size_ < o.capacity_ then inPlace (fun v => SimpleVector.PushBack v value) heap o
  else reallocating (fun v => SimpleVector.PushBack v value) heap o

/-- The assignment `v[index] = x` on the free store: a write into the array the
object owns. -/
def assignAtOnHeap (heap : Heap T) (o : VectorObject) (i : Nat) (x : T) :
    Except Fault (Heap T × VectorObject) :=
  inPlace (fun v => SimpleVector.assignAt v i x) heap o

/-- The member `Resize(new_size)` on the free store: nothing when
`new_size == size_`, in place when `new_size < capacity_`, through a new array
otherwise. -/
def ResizeOnHeap [Element T] (heap : Heap T) (o : VectorObject) (new_size : Nat) :
    Except Fault (Heap T × VectorObject) :=
  if new_size = o.size_ then pure (heap, o)
  else if new_size < o.capacity_ then inPlace (fun v => SimpleVector.Resize v new_size) heap o
  else reallocating (fun v => SimpleVector.Resize v new_size) heap o

/-- The member `Erase(pos)` on the free store: `std::move` inside the array the
object owns. -/
def EraseOnHeap [Element T] (heap : Heap T) (o : VectorObject) (pos : Nat) :
    Except Fault (Heap T × VectorObject) :=
  inPlace (fun v => do let r ← SimpleVector.Erase v pos; pure r.1) heap o

/-- The member `Clear()` on the free store: `size_ = 0`, no array is touched. -/
def ClearOnHeap (heap : Heap T) (o : VectorObject) : Heap T × VectorObject :=
  (heap, ⟨o.items_, 0, o.capacity_⟩)

/-- A call that changes a vector: `PushBack(value)`, the write
`v[index] = value`, `Resize(new_size)`, `Erase(begin() + pos)` and `Clear()`. -/
inductive Mutation (T : Type) where
  | pushBack (value : T)
  | write (index : Nat) (value : T)
  | resize (new_size : Nat)
  | erase (pos : Nat)
  | clear
  deriving Repr

/-- The call `m` made within its precondition on the vector `v`: an element
write and `Erase` need a position below `size_`. -/
def Permitted (v : SimpleVector T) : Mutation T → Prop
  | Mutation.write index _ => index < v.size_
  | Mutation.erase pos => pos < v.size_
  | _ => True

/-- The call `m` on a vector. -/
def applyMutation [Element T] (v : SimpleVector T) : Mutation T → Except Fault (SimpleVector T)
  | Mutation.pushBack value => SimpleVector.PushBack v value
  | Mutation.write index value => SimpleVector.assignAt v index value
  | Mutation.resize new_size => SimpleVector.Resize v new_size
  | Mutation.erase pos => do let r ← SimpleVector.Erase v pos; pure r.1
  | Mutation.clear => pure (SimpleVector.Clear v)

/-- The call `m` on a vector object on the free store. -/
def applyMutationOnHeap [Element T] (heap : Heap T) (o : VectorObject) :
    Mutation T → Except Fault (Heap T × VectorObject)
  | Mutation.pushBack value => PushBackOnHeap heap o value
  | Mutation.write index value => assignAtOnHeap heap o index value
  | Mutation.resize new_size => ResizeOnHeap heap o new_size
  | Mutation.erase pos => EraseOnHeap heap o pos
  | Mutation.clear => pure (ClearOnHeap heap o)

/-- The calls `ms` made one after the other on a vector. -/
def applyAll [Element T] : SimpleVector T → List (Mutation T) → Except Fault (SimpleVector T)
  | v, [] => pure v
  | v, m :: ms => do
    let r ← applyMutation v m
    applyAll r ms

/-- The calls `ms` made one after the other on a vector object on the free
store. -/
def applyAllOnHeap [Element T] :
    Heap T → VectorObject → List (Mutation T) → Except Fault (Heap T × VectorObject)
  | heap, o, [] => pure (heap, o)
  | heap, o, m :: ms => do
    let r ← applyMutationOnHeap heap o m
    applyAllOnHeap r.1 r.2 ms

/-- Every call of `ms` is made within its precondition on the state the calls
before it leave. -/
def PermittedAll [Element T] : SimpleVector T → List (Mutation T) → Prop
  | _, [] => True
  | v, m :: ms => Permitted v m ∧ ∀ r, applyMutation v m = Except.ok r → PermittedAll r ms

end FreeStore

end SimpleVectorModel
namespace SimpleVectorModel
section BufferLemmas
variable {T : Type}

theorem readAt_of_lt {buf : List T} {i : Nat} (h : i < buf.length) :
    readAt buf i = Except.ok buf[i] := by
  simp [readAt, List.getElem?_eq_getElem h]

theorem writeAt_of_lt {buf : List T} {i : Nat} (x : T) (h : i < buf.length) :
    writeAt buf i x = Except.ok (buf.set i x) := by
  simp [writeAt, h]

theorem copyLoop_ok (src : List T) : ∀ (n first d_first : Nat) (dst : List T),
    first + n ≤ src.length → d_first + n ≤ dst.length →
    ∃ r, copyLoop src n first d_first dst = Except.ok r ∧ r.length = dst.length ∧
      ∀ i, r[i]? = if d_first ≤ i ∧ i < d_first + n then src[i - d_first + first]? else dst[i]? := by
  intro n
  induction n with
  | zero =>
    intro first d_first dst _ _
    refine ⟨dst, rfl, rfl, fun i => ?_⟩
    rw [if_neg (by omega)]
  | succ n ih =>
    intro first d_first dst hs hd
    have h1 : first < src.length := by omega
    have h2 : d_first < dst.length := by omega
    obtain ⟨r, hr, hlen, hget⟩ := ih (first + 1) (d_first + 1) (dst.set d_first src[first])
      (by omega) (by simp; omega)
    refine ⟨r, ?_, by simpa using hlen, fun i => ?_⟩
    · simp [copyLoop, readAt_of_lt h1, writeAt_of_lt _ h2, bind, Except.bind, hr]
    · rw [hget i]
      by_cases hi : i = d_first
      · subst hi
        have : ¬ (i + 1 ≤ i ∧ i < i + 1 + n) := by omega
        simp [this, h2, List.getElem?_eq_getElem h1]
      · by_cases hin : d_first ≤ i ∧ i < d_first + (n + 1)
        · have h3 : d_first + 1 ≤ i ∧ i < d_first + 1 + n := by omega
          have h4 : i - (d_first + 1) + (first + 1) = i - d_first + first := by omega
          simp [hin, h3, h4]
        · have h3 : ¬ (d_first + 1 ≤ i ∧ i < d_first + 1 + n) := by omega
          have h5 : d_first ≠ i := fun h => hi h.symm
          simp [hin, h3, List.getElem?_set_ne h5]

theorem copyBackwardLoop_ok (src : List T) : ∀ (n last d_last : Nat) (dst : List T),
    n ≤ last → last ≤ src.length → n ≤ d_last → d_last ≤ dst.length →
    ∃ r, copyBackwardLoop src n last d_last dst = Except.ok r ∧ r.length = dst.length ∧
      ∀ i, r[i]? = if d_last - n ≤ i ∧ i < d_last then src[i + last - d_last]? else dst[i]? := by
  intro n
  induction n with
  | zero =>
    intro last d_last dst _ _ _ _
    refine ⟨dst, rfl, rfl, fun i => ?_⟩
    rw [if_neg (by omega)]
  | succ n ih =>
    intro last d_last dst h1 h2 h3 h4
    obtain ⟨l, rfl⟩ : ∃ l, last = l + 1 := ⟨last - 1, by omega⟩
    obtain ⟨d, rfl⟩ : ∃ d, d_last = d + 1 := ⟨d_last - 1, by omega⟩
    have hl : l < src.length := by omega
    have hd : d < dst.length := by omega
    obtain ⟨r, hr, hlen, hget⟩ := ih l d (dst.set d src[l])
      (by omega) (by omega) (by omega) (by simp; omega)
    refine ⟨r, ?_, by simpa using hlen, fun i => ?_⟩
    · simp [copyBackwardLoop, readAt_of_lt hl, writeAt_of_lt _ hd, bind, Except.bind, hr]
    · rw [hget i]
      by_cases hi : i = d
      · subst hi
        rw [if_neg (by omega), if_pos (by omega)]
        have h5 : i + (l + 1) - (i + 1) = l := by omega
        simp [h5, hd, List.getElem?_eq_getElem hl]
      · by_cases hin : d - n ≤ i ∧ i < d
        · rw [if_pos hin, if_pos (by omega)]
          have h5 : i + (l + 1) - (d + 1) = i + l - d := by omega
          rw [h5]
        · rw [if_neg hin, if_neg (by omega)]
          exact List.getElem?_set_ne (fun h => hi h.symm)

theorem fillLoop_ok : ∀ (n i0 : Nat) (x : T) (buf : List T), i0 + n ≤ buf.length →
    ∃ r, fillLoop n i0 x buf = Except.ok r ∧ r.length = buf.length ∧
      ∀ i, r[i]? = if i0 ≤ i ∧ i < i0 + n then some x else buf[i]? := by
  intro n
  induction n with
  | zero =>
    intro i0 x buf _
    refine ⟨buf, rfl, rfl, fun i => ?_⟩
    rw [if_neg (by omega)]
  | succ n ih =>
    intro i0 x buf h
    have h0 : i0 < buf.length := by omega
    obtain ⟨r, hr, hlen, hget⟩ := ih (i0 + 1) x (buf.set i0 x) (by simp; omega)
    refine ⟨r, ?_, by simpa using hlen, fun i => ?_⟩
    · simp [fillLoop, writeAt_of_lt _ h0, bind, Except.bind, hr]
    · rw [hget i]
      by_cases hi : i = i0
      · subst hi
        rw [if_neg (by omega), if_pos (by omega)]
        simp [h0]
      · by_cases hin : i0 + 1 ≤ i ∧ i < i0 + 1 + n
        · rw [if_pos hin, if_pos (by omega)]
        · rw [if_neg hin, if_neg (by omega)]
          exact List.getElem?_set_ne (fun h => hi h.symm)

theorem backwardWithinLoop_ok [Element T] (mv : Bool) : ∀ (n last d_last : Nat) (buf : List T),
    n ≤ last → last < d_last → d_last ≤ buf.length →
    ∃ r, backwardWithinLoop mv n last d_last buf = Except.ok r ∧ r.length = buf.length ∧
      (∀ i, i < last - n → r[i]? = buf[i]?) ∧
      (∀ i, d_last - n ≤ i → i < d_last → r[i]? = buf[i + last - d_last]?) ∧
      (∀ i, d_last ≤ i → r[i]? = buf[i]?) := by
  intro n
  induction n with
  | zero =>
    intro last d_last buf _ _ _
    exact ⟨buf, rfl, rfl, fun _ _ => rfl, fun i h1 h2 => by omega, fun _ _ => rfl⟩
  | succ n ih =>
    intro last d_last buf h1 h2 h3
    obtain ⟨l, rfl⟩ : ∃ l, last = l + 1 := ⟨last - 1, by omega⟩
    obtain ⟨d, rfl⟩ : ∃ d, d_last = d + 1 := ⟨d_last - 1, by omega⟩
    have hl : l < buf.length := by omega
    have hd : d < buf.length := by omega
    have hld : l < d := by omega
    cases mv with
    | false =>
      obtain ⟨r, hr, hlen, hlo, hmid, hhi⟩ := ih l d (buf.set d buf[l])
        (by omega) (by omega) (by simp; omega)
      refine ⟨r, ?_, by simpa using hlen, fun i hi => ?_, fun i hi1 hi2 => ?_, fun i hi => ?_⟩
      · simp [backwardWithinLoop, readAt_of_lt hl, writeAt_of_lt _ hd, bind, Except.bind, hr]
      · rw [hlo i (by omega)]
        exact List.getElem?_set_ne (by omega)
      · by_cases hid : i = d
        · subst hid
          rw [hhi i (Nat.le_refl _)]
          have h5 : i + (l + 1) - (i + 1) = l := by omega
          simp [h5, hd, List.getElem?_eq_getElem hl]
        · rw [hmid i (by omega) (by omega)]
          have h5 : i + (l + 1) - (d + 1) = i + l - d := by omega
          rw [h5]
          exact List.getElem?_set_ne (by omega)
      · rw [hhi i (by omega)]
        exact List.getElem?_set_ne (by omega)
    | true =>
      have hl1 : l < (buf.set d buf[l]).length := by simpa using hl
      obtain ⟨r, hr, hlen, hlo, hmid, hhi⟩ :=
        ih l d ((buf.set d buf[l]).set l (Element.movedFrom buf[l]))
        (by omega) (by omega) (by simp; omega)
      refine ⟨r, ?_, by simpa using hlen, fun i hi => ?_, fun i hi1 hi2 => ?_, fun i hi => ?_⟩
      · simp [backwardWithinLoop, readAt_of_lt hl, writeAt_of_lt _ hd, writeAt_of_lt _ hl1,
          bind, Except.bind, hr]
      · rw [hlo i (by omega), List.getElem?_set_ne (by omega), List.getElem?_set_ne (by omega)]
      · by_cases hid : i = d
        · subst hid
          rw [hhi i (Nat.le_refl _), List.getElem?_set_ne (by omega)]
          have h5 : i + (l + 1) - (i + 1) = l := by omega
          simp [h5, hd, List.getElem?_eq_getElem hl]
        · rw [hmid i (by omega) (by omega)]
          have h5 : i + (l + 1) - (d + 1) = i + l - d := by omega
          rw [h5, List.getElem?_set_ne (by omega), List.getElem?_set_ne (by omega)]
      · rw [hhi i (by omega), List.getElem?_set_ne (by omega), List.getElem?_set_ne (by omega)]

theorem moveWithinLoop_ok [Element T] : ∀ (n first d_first : Nat) (buf : List T),
    d_first < first → first + n ≤ buf.length →
    ∃ r, moveWithinLoop n first d_first buf = Except.ok r ∧ r.length = buf.length ∧
      (∀ i, i < d_first → r[i]? = buf[i]?) ∧
      (∀ i, d_first ≤ i → i < d_first + n → r[i]? = buf[i + first - d_first]?) ∧
      (∀ i, first + n ≤ i → r[i]? = buf[i]?) := by
  intro n
  induction n with
  | zero =>
    intro first d_first buf _ _
    exact ⟨buf, rfl, rfl, fun _ _ => rfl, fun i h1 h2 => by omega, fun _ _ => rfl⟩
  | succ n ih =>
    intro first d_first buf h1 h2
    have hf : first < buf.length := by omega
    have hd : d_first < buf.length := by omega
    have hf1 : first < (buf.set d_first buf[first]).length := by simpa using hf
    obtain ⟨r, hr, hlen, hlo, hmid, hhi⟩ :=
      ih (first + 1) (d_first + 1) ((buf.set d_first buf[first]).set first (Element.movedFrom buf[first]))
      (by omega) (by simp; omega)
    refine ⟨r, ?_, by simpa using hlen, fun i hi => ?_, fun i hi1 hi2 => ?_, fun i hi => ?_⟩
    · simp [moveWithinLoop, readAt_of_lt hf, writeAt_of_lt _ hd, writeAt_of_lt _ hf1,
        bind, Except.bind, hr]
    · rw [hlo i (by omega), List.getElem?_set_ne (by omega), List.getElem?_set_ne (by omega)]
    · by_cases hid : i = d_first
      · subst hid
        rw [hlo i (by omega), List.getElem?_set_ne (by omega)]
        have h5 : i + first - i = first := by omega
        simp [h5, hd, List.getElem?_eq_getElem hf]
      · rw [hmid i (by omega) (by omega)]
        have h5 : i + (first + 1) - (d_first + 1) = i + first - d_first := by omega
        rw [h5, List.getElem?_set_ne (by omega), List.getElem?_set_ne (by omega)]
    · rw [hhi i (by omega), List.getElem?_set_ne (by omega), List.getElem?_set_ne (by omega)]


theorem moveLoop_ok [Element T] : ∀ (n first d_first : Nat) (src dst : List T),
    first + n ≤ src.length → d_first + n ≤ dst.length →
    ∃ s r, moveLoop n first d_first src dst = Except.ok (s, r) ∧
      s.length = src.length ∧ r.length = dst.length ∧
      (∀ i, r[i]? = if d_first ≤ i ∧ i < d_first + n then src[i - d_first + first]?
        else dst[i]?) ∧
      (∀ i, first + n ≤ i → s[i]? = src[i]?) := by
  intro n
  induction n with
  | zero =>
    intro first d_first src dst _ _
    refine ⟨src, dst, rfl, rfl, rfl, fun i => ?_, fun _ _ => rfl⟩
    rw [if_neg (by omega)]
  | succ n ih =>
    intro first d_first src dst hs hd
    have h1 : first < src.length := by omega
    have h2 : d_first < dst.length := by omega
    obtain ⟨s, r, hr, hslen, hrlen, hget, hsrc⟩ := ih (first + 1) (d_first + 1)
      (src.set first (Element.movedFrom src[first])) (dst.set d_first src[first])
      (by simp; omega) (by simp; omega)
    refine ⟨s, r, ?_, by simpa using hslen, by simpa using hrlen, fun i => ?_, fun i hi => ?_⟩
    · simp [moveLoop, readAt_of_lt h1, writeAt_of_lt _ h2, writeAt_of_lt _ h1, bind,
        Except.bind, hr]
    · rw [hget i]
      by_cases hi : i = d_first
      · subst hi
        rw [if_neg (by omega), if_pos (by omega)]
        simp [h2, List.getElem?_eq_getElem h1]
      · by_cases hin : d_first ≤ i ∧ i < d_first + (n + 1)
        · rw [if_pos (by omega), if_pos hin, List.getElem?_set_ne (by omega)]
          congr 1; omega
        · rw [if_neg (by omega), if_neg hin]
          exact List.getElem?_set_ne (fun h => hi h.symm)
    · rw [hsrc i (by omega), List.getElem?_set_ne (by omega)]

theorem moveLoop_eq_copyLoop [Element T] (n first d_first : Nat) (src dst : List T)
    (hs : first + n ≤ src.length) (hd : d_first + n ≤ dst.length) :
    ∃ s r, moveLoop n first d_first src dst = Except.ok (s, r) ∧
      copyLoop src n first d_first dst = Except.ok r ∧ s.length = src.length := by
  obtain ⟨s, r, hr, hslen, _, hget, _⟩ := moveLoop_ok n first d_first src dst hs hd
  obtain ⟨r2, hr2, _, hget2⟩ := copyLoop_ok src n first d_first dst hs hd
  have : r2 = r := by
    apply List.ext_getElem?
    intro i
    rw [hget i, hget2 i]
  exact ⟨s, r, hr, by rw [hr2, this], hslen⟩

theorem moveBackwardLoop_ok [Element T] : ∀ (n last d_last : Nat) (src dst : List T),
    n ≤ last → last ≤ src.length → n ≤ d_last → d_last ≤ dst.length →
    ∃ s r, moveBackwardLoop n last d_last src dst = Except.ok (s, r) ∧
      s.length = src.length ∧ r.length = dst.length ∧
      ∀ i, r[i]? = if d_last - n ≤ i ∧ i < d_last then src[i + last - d_last]?
        else dst[i]? := by
  intro n
  induction n with
  | zero =>
    intro last d_last src dst _ _ _ _
    refine ⟨src, dst, rfl, rfl, rfl, fun i => ?_⟩
    rw [if_neg (by omega)]
  | succ n ih =>
    intro last d_last src dst h1 h2 h3 h4
    obtain ⟨l, rfl⟩ : ∃ l, last = l + 1 := ⟨last - 1, by omega⟩
    obtain ⟨d, rfl⟩ : ∃ d, d_last = d + 1 := ⟨d_last - 1, by omega⟩
    have hl : l < src.length := by omega
    have hd : d < dst.length := by omega
    obtain ⟨s, r, hr, hslen, hrlen, hget⟩ := ih l d
      (src.set l (Element.movedFrom src[l])) (dst.set d src[l])
      (by omega) (by simp; omega) (by omega) (by simp; omega)
    refine ⟨s, r, ?_, by simpa using hslen, by simpa using hrlen, fun i => ?_⟩
    · simp [moveBackwardLoop, readAt_of_lt hl, writeAt_of_lt _ hd, writeAt_of_lt _ hl, bind,
        Except.bind, hr]
    · rw [hget i]
      by_cases hi : i = d
      · subst hi
        rw [if_neg (by omega), if_pos (by omega)]
        have h5 : i + (l + 1) - (i + 1) = l := by omega
        simp [h5, hd, List.getElem?_eq_getElem hl]
      · by_cases hin : d - n ≤ i ∧ i < d
        · rw [if_pos hin, if_pos (by omega), List.getElem?_set_ne (by omega)]
          congr 1; omega
        · rw [if_neg hin, if_neg (by omega)]
          exact List.getElem?_set_ne (fun h => hi h.symm)

end BufferLemmas
end SimpleVectorModel
namespace SimpleVectorModel
namespace SimpleVector
section OpLemmas
variable {T : Type}

theorem getElem?_insertAt (xs : List T) (k : Nat) (x : T) (hk : k ≤ xs.length) (i : Nat) :
    (xs.take k ++ x :: xs.drop k)[i]? =
      if i < k then xs[i]? else if i = k then some x else xs[i - 1]? := by
  have hlen : (xs.take k).length = k := by simp; omega
  rw [List.getElem?_append, hlen]
  by_cases h1 : i < k
  · rw [if_pos h1, if_pos h1, List.getElem?_take, if_pos h1]
  · rw [if_neg h1, if_neg h1, List.getElem?_cons]
    by_cases h2 : i = k
    · subst h2; simp
    · rw [if_neg (by omega), if_neg h2, List.getElem?_drop]
      congr 1; omega

theorem live_eq_of_getElem? (r : SimpleVector T) (l : List T) (hl : l.length = r.size_)
    (h : ∀ i, i < r.size_ → r.items_[i]? = l[i]?) : r.live = l := by
  apply List.ext_getElem?
  intro i
  rw [live, List.getElem?_take]
  by_cases hi : i < r.size_
  · rw [if_pos hi, h i hi]
  · rw [if_neg hi, List.getElem?_eq_none (by omega)]

theorem live_getElem? (v : SimpleVector T) (i : Nat) (hi : i < v.size_) :
    v.live[i]? = v.items_[i]? := by
  rw [live, List.getElem?_take, if_pos hi]

theorem live_length (v : SimpleVector T) (h : v.size_ ≤ v.items_.length) :
    v.live.length = v.size_ := by
  simp [live]; omega

/-- The capacity `PushBack` and `Insert` leave behind. -/
theorem PushBack_run [Element T] (v : SimpleVector T) (x : T)
    (hbuf : v.items_.length = v.capacity_) (hinv : v.size_ ≤ v.capacity_) :
    ∃ r, PushBack v x = Except.ok r ∧ r.items_.length = r.capacity_ ∧
      r.size_ = v.size_ + 1 ∧
      r.capacity_ = (if v.size_ < v.capacity_ then v.capacity_
        else if v.capacity_ = 0 then 1 else v.capacity_ * 2) ∧
      r.live = v.live ++ [x] := by
  have hll := live_length v (by omega)
  by_cases hlt : v.size_ < v.capacity_
  · have hw : v.size_ < v.items_.length := by omega
    refine ⟨⟨v.items_.set v.size_ x, v.size_ + 1, v.capacity_⟩, ?_, by simpa using hbuf, rfl,
      by simp [hlt], ?_⟩
    · simp [PushBack, hlt, writeAt_of_lt _ hw, bind, Except.bind, pure, Except.pure]
    · apply live_eq_of_getElem?
      · simp [hll]
      · intro i hi
        simp only at hi ⊢
        rw [List.getElem?_append, hll]
        by_cases h1 : i < v.size_
        · rw [if_pos h1, List.getElem?_set_ne (by omega), live_getElem? v i h1]
        · have : i = v.size_ := by omega
          subst this
          simp [hw]
  · have hsz : v.size_ = v.capacity_ := by omega
    obtain ⟨r1, hr1, hlen1, hget1⟩ := copyLoop_ok v.items_ v.size_ 0
      0 (newArray (if v.capacity_ = 0 then 1 else v.capacity_ * 2))
      (by omega) (by simp [newArray]; split <;> omega)
    have hlen1' : r1.length = (if v.capacity_ = 0 then 1 else v.capacity_ * 2) := by
      simpa [newArray] using hlen1
    have hw : v.size_ < r1.length := by rw [hlen1']; split <;> omega
    refine ⟨⟨r1.set v.size_ x, v.size_ + 1, if v.capacity_ = 0 then 1 else v.capacity_ * 2⟩,
      ?_, by simpa using hlen1', rfl, by simp [hlt], ?_⟩
    · simp [PushBack, hlt, std_copy, hr1, writeAt_of_lt _ hw, bind, Except.bind, pure, Except.pure]
    · apply live_eq_of_getElem?
      · simp [hll]
      · intro i hi
        simp only at hi ⊢
        rw [List.getElem?_append, hll]
        by_cases h1 : i < v.size_
        · rw [if_pos h1, List.getElem?_set_ne (by omega), hget1 i, if_pos (by omega),
            live_getElem? v i h1]
          simp
        · have : i = v.size_ := by omega
          subst this
          simp [hw]


theorem readRef_ok (arr : List T) (n : Nat) (value : ValueRef T) (hlen : arr.length = n)
    (hval : ∀ j, value = ValueRef.slot j → j < n) :
    ∃ y, readRef arr value = Except.ok y ∧ (∀ x, value = ValueRef.external x → y = x) := by
  cases value with
  | external x => exact ⟨x, rfl, fun x2 h => by cases h; rfl⟩
  | slot j =>
    have hj : j < arr.length := by rw [hlen]; exact hval j rfl
    exact ⟨arr[j], readAt_of_lt hj, fun x h => by cases h⟩

theorem Admits_slot (v : SimpleVector T) (value : ValueRef T) (hval : v.Admits value) :
    ∀ j, value = ValueRef.slot j → j < v.items_.length := by
  intro j h
  subst h
  exact hval

theorem Insert_ref_run [Element T] (v : SimpleVector T) (k : Nat) (value : ValueRef T)
    (hbuf : v.items_.length = v.capacity_) (hinv : v.size_ ≤ v.capacity_) (hk : k ≤ v.size_)
    (hval : v.Admits value) :
    ∃ r y, Insert v k value = Except.ok (r, k) ∧ r.items_.length = r.capacity_ ∧
      r.size_ = v.size_ + 1 ∧
      r.capacity_ = (if v.size_ < v.capacity_ then v.capacity_
        else if v.capacity_ = 0 then 1 else v.capacity_ * 2) ∧
      r.live = v.live.take k ++ y :: v.live.drop k ∧
      r.items_[k]? = some y ∧ (∀ x, value = ValueRef.external x → y = x) := by
  have hll := live_length v (by omega)
  by_cases hlt : v.size_ < v.capacity_
  · obtain ⟨r1, hr1, hlen1, hlo, hmid, _⟩ := backwardWithinLoop_ok false (v.size_ - k)
      v.size_ (v.size_ + 1) v.items_ (by omega) (by omega) (by omega)
    obtain ⟨y, hy, hext⟩ := readRef_ok r1 v.items_.length value hlen1 (Admits_slot v value hval)
    have hw : k < r1.length := by omega
    refine ⟨⟨r1.set k y, v.size_ + 1, v.capacity_⟩, y, ?_, by simp; omega, rfl,
      by simp [hlt], ?_, by simp [hw], hext⟩
    · simp [Insert, hk, hlt, std_copy_backward_within, hr1, hy, writeAt_of_lt _ hw, bind,
        Except.bind, pure, Except.pure]
    · apply live_eq_of_getElem?
      · simp [hll]; omega
      · intro i hi
        simp only at hi ⊢
        rw [getElem?_insertAt _ _ _ (by omega)]
        by_cases h1 : i < k
        · rw [if_pos h1, List.getElem?_set_ne (by omega), hlo i (by omega),
            live_getElem? v i (by omega)]
        · rw [if_neg h1]
          by_cases h2 : i = k
          · subst h2; simp [hw]
          · rw [if_neg h2, List.getElem?_set_ne (by omega), hmid i (by omega) (by omega),
              live_getElem? v (i - 1) (by omega)]
            congr 1; omega
  · have hsz : v.size_ = v.capacity_ := by omega
    obtain ⟨r1, hr1, hlen1, hget1⟩ := copyLoop_ok v.items_ k 0
      0 (newArray (if v.capacity_ = 0 then 1 else v.capacity_ * 2))
      (by omega) (by simp [newArray]; split <;> omega)
    have hlen1' : r1.length = (if v.capacity_ = 0 then 1 else v.capacity_ * 2) := by
      simpa [newArray] using hlen1
    have hbig : v.size_ + 1 ≤ r1.length := by rw [hlen1']; split <;> omega
    obtain ⟨r2, hr2, hlen2, hget2⟩ := copyBackwardLoop_ok v.items_ (v.size_ - k)
      v.size_ (v.size_ + 1) r1 (by omega) (by omega) (by omega) hbig
    obtain ⟨y, hy, hext⟩ := readRef_ok v.items_ v.items_.length value rfl
      (Admits_slot v value hval)
    have hw : k < r2.length := by omega
    refine ⟨⟨r2.set k y, v.size_ + 1, if v.capacity_ = 0 then 1 else v.capacity_ * 2⟩, y,
      ?_, by simp; omega, rfl, by simp [hlt], ?_, by simp [hw], hext⟩
    · simp [Insert, hk, hlt, std_copy, std_copy_backward, hr1, hr2, hy, writeAt_of_lt _ hw,
        bind, Except.bind, pure, Except.pure]
    · apply live_eq_of_getElem?
      · simp [hll]; omega
      · intro i hi
        simp only at hi ⊢
        rw [getElem?_insertAt _ _ _ (by omega)]
        by_cases h1 : i < k
        · rw [if_pos h1, List.getElem?_set_ne (by omega), hget2 i, if_neg (by omega), hget1 i,
            if_pos (by omega), live_getElem? v i (by omega)]
          simp
        · rw [if_neg h1]
          by_cases h2 : i = k
          · subst h2; simp [hw]
          · rw [if_neg h2, List.getElem?_set_ne (by omega), hget2 i, if_pos (by omega),
              live_getElem? v (i - 1) (by omega)]
            congr 1; omega

theorem Insert_run [Element T] (v : SimpleVector T) (k : Nat) (x : T)
    (hbuf : v.items_.length = v.capacity_) (hinv : v.size_ ≤ v.capacity_) (hk : k ≤ v.size_) :
    ∃ r, Insert v k (ValueRef.external x) = Except.ok (r, k) ∧ r.items_.length = r.capacity_ ∧
      r.size_ = v.size_ + 1 ∧
      r.capacity_ = (if v.size_ < v.capacity_ then v.capacity_
        else if v.capacity_ = 0 then 1 else v.capacity_ * 2) ∧
      r.live = v.live.take k ++ x :: v.live.drop k ∧
      r.items_[k]? = some x := by
  obtain ⟨r, y, h1, hb, hs, hc, hl, hx, hext⟩ :=
    Insert_ref_run v k (ValueRef.external x) hbuf hinv hk trivial
  have hy : y = x := hext x rfl
  subst hy
  exact ⟨r, h1, hb, hs, hc, hl, hx⟩

theorem Insert_invalid [Element T] (v : SimpleVector T) (k j : Nat)
    (hbuf : v.items_.length = v.capacity_) (hinv : v.size_ ≤ v.capacity_) (hk : k ≤ v.size_)
    (hj : v.items_.length ≤ j) :
    Insert v k (ValueRef.slot j) = Except.error Fault.undefined_behaviour := by
  by_cases hlt : v.size_ < v.capacity_
  · obtain ⟨r1, hr1, hlen1, _⟩ := backwardWithinLoop_ok false (v.size_ - k)
      v.size_ (v.size_ + 1) v.items_ (by omega) (by omega) (by omega)
    have hnone : r1[j]? = none := List.getElem?_eq_none (by omega)
    simp [Insert, hk, hlt, std_copy_backward_within, hr1, readRef, readAt, hnone, bind,
      Except.bind]
  · obtain ⟨r1, hr1, hlen1, _⟩ := copyLoop_ok v.items_ k 0
      0 (newArray (if v.capacity_ = 0 then 1 else v.capacity_ * 2))
      (by omega) (by simp [newArray]; split <;> omega)
    have hlen1' : r1.length = (if v.capacity_ = 0 then 1 else v.capacity_ * 2) := by
      simpa [newArray] using hlen1
    have hbig : v.size_ + 1 ≤ r1.length := by rw [hlen1']; split <;> omega
    obtain ⟨r2, hr2, _⟩ := copyBackwardLoop_ok v.items_ (v.size_ - k)
      v.size_ (v.size_ + 1) r1 (by omega) (by omega) (by omega) hbig
    have hnone : v.items_[j]? = none := List.getElem?_eq_none hj
    simp [Insert, hk, hlt, std_copy, std_copy_backward, hr1, hr2, readRef, readAt, hnone, bind,
      Except.bind]

theorem InsertMove_ref_run [Element T] (v : SimpleVector T) (k : Nat) (value : ValueRef T)
    (hbuf : v.items_.length = v.capacity_) (hinv : v.size_ ≤ v.capacity_) (hk : k ≤ v.size_)
    (hval : v.Admits value) :
    ∃ r, InsertMove v k value = Except.ok (r, k) ∧ r.items_.length = r.capacity_ ∧
      r.size_ = v.size_ + 1 ∧
      r.capacity_ = (if v.size_ < v.capacity_ then v.capacity_
        else if v.capacity_ = 0 then 1 else v.capacity_ * 2) ∧
      (∀ x, value = ValueRef.external x →
        r.live = v.live.take k ++ x :: v.live.drop k ∧ r.items_[k]? = some x) := by
  have hll := live_length v (by omega)
  by_cases hlt : v.size_ < v.capacity_
  · obtain ⟨r1, hr1, hlen1, hlo, hmid, _⟩ := backwardWithinLoop_ok true (v.size_ - k)
      v.size_ (v.size_ + 1) v.items_ (by omega) (by omega) (by omega)
    obtain ⟨y, hy, hext⟩ := readRef_ok r1 v.items_.length value hlen1 (Admits_slot v value hval)
    have hw : k < r1.length := by omega
    cases value with
    | slot j =>
      have hj : j < (r1.set k y).length := by
        simp only [List.length_set, hlen1]; exact hval
      refine ⟨⟨(r1.set k y).set j (Element.movedFrom y), v.size_ + 1, v.capacity_⟩, ?_,
        by simp; omega, rfl, by simp [hlt], fun x h => by cases h⟩
      simp [InsertMove, hk, hlt, std_move_backward_within, hr1, hy, writeAt_of_lt _ hw,
        moveFromRef, writeAt_of_lt _ hj, bind, Except.bind, pure, Except.pure]
    | external x0 =>
      have hyx : y = x0 := hext x0 rfl
      subst hyx
      refine ⟨⟨r1.set k y, v.size_ + 1, v.capacity_⟩, ?_, by simp; omega, rfl,
        by simp [hlt], fun x h => ?_⟩
      · simp [InsertMove, hk, hlt, std_move_backward_within, hr1, hy, writeAt_of_lt _ hw,
          moveFromRef, bind, Except.bind, pure, Except.pure]
      · cases h
        refine ⟨?_, by simp [hw]⟩
        apply live_eq_of_getElem?
        · simp [hll]; omega
        · intro i hi
          simp only at hi ⊢
          rw [getElem?_insertAt _ _ _ (by omega)]
          by_cases h1 : i < k
          · rw [if_pos h1, List.getElem?_set_ne (by omega), hlo i (by omega),
              live_getElem? v i (by omega)]
          · rw [if_neg h1]
            by_cases h2 : i = k
            · subst h2; simp [hw]
            · rw [if_neg h2, List.getElem?_set_ne (by omega), hmid i (by omega) (by omega),
                live_getElem? v (i - 1) (by omega)]
              congr 1; omega
  · have hsz : v.size_ = v.capacity_ := by omega
    obtain ⟨s1, r1, hr1, hslen1, hlen1, hget1, hsrc1⟩ := moveLoop_ok k 0 0 v.items_
      (newArray (if v.capacity_ = 0 then 1 else v.capacity_ * 2))
      (by omega) (by simp [newArray]; split <;> omega)
    have hlen1' : r1.length = (if v.capacity_ = 0 then 1 else v.capacity_ * 2) := by
      simpa [newArray] using hlen1
    have hbig : v.size_ + 1 ≤ r1.length := by rw [hlen1']; split <;> omega
    obtain ⟨s2, r2, hr2, hslen2, hlen2, hget2⟩ := moveBackwardLoop_ok (v.size_ - k)
      v.size_ (v.size_ + 1) s1 r1 (by omega) (by omega) (by omega) hbig
    obtain ⟨y, hy, hext⟩ := readRef_ok s2 v.items_.length value (by omega)
      (Admits_slot v value hval)
    have hw : k < r2.length := by omega
    refine ⟨⟨r2.set k y, v.size_ + 1, if v.capacity_ = 0 then 1 else v.capacity_ * 2⟩,
      ?_, by simp; omega, rfl, by simp [hlt], fun x h => ?_⟩
    · simp [InsertMove, hk, hlt, std_move, std_move_backward, hr1, hr2, hy, writeAt_of_lt _ hw,
        bind, Except.bind, pure, Except.pure]
    · have hyx : y = x := hext x h
      subst hyx
      refine ⟨?_, by simp [hw]⟩
      apply live_eq_of_getElem?
      · simp [hll]; omega
      · intro i hi
        simp only at hi ⊢
        rw [getElem?_insertAt _ _ _ (by omega)]
        by_cases h1 : i < k
        · rw [if_pos h1, List.getElem?_set_ne (by omega), hget2 i, if_neg (by omega), hget1 i,
            if_pos (by omega), live_getElem? v i (by omega)]
          simp
        · rw [if_neg h1]
          by_cases h2 : i = k
          · subst h2; simp [hw]
          · rw [if_neg h2, List.getElem?_set_ne (by omega), hget2 i, if_pos (by omega),
              hsrc1 _ (by omega), live_getElem? v (i - 1) (by omega)]
            congr 1; omega

theorem InsertMove_run [Element T] (v : SimpleVector T) (k : Nat) (x : T)
    (hbuf : v.items_.length = v.capacity_) (hinv : v.size_ ≤ v.capacity_) (hk : k ≤ v.size_) :
    ∃ r, InsertMove v k (ValueRef.external x) = Except.ok (r, k) ∧
      r.items_.length = r.capacity_ ∧ r.size_ = v.size_ + 1 ∧
      r.capacity_ = (if v.size_ < v.capacity_ then v.capacity_
        else if v.capacity_ = 0 then 1 else v.capacity_ * 2) ∧
      r.live = v.live.take k ++ x :: v.live.drop k ∧
      r.items_[k]? = some x := by
  obtain ⟨r, h1, hb, hs, hc, hext⟩ :=
    InsertMove_ref_run v k (ValueRef.external x) hbuf hinv hk trivial
  exact ⟨r, h1, hb, hs, hc, (hext x rfl).1, (hext x rfl).2⟩

theorem InsertMove_invalid [Element T] (v : SimpleVector T) (k j : Nat)
    (hbuf : v.items_.length = v.capacity_) (hinv : v.size_ ≤ v.capacity_) (hk : k ≤ v.size_)
    (hj : v.items_.length ≤ j) :
    InsertMove v k (ValueRef.slot j) = Except.error Fault.undefined_behaviour := by
  by_cases hlt : v.size_ < v.capacity_
  · obtain ⟨r1, hr1, hlen1, _⟩ := backwardWithinLoop_ok true (v.size_ - k)
      v.size_ (v.size_ + 1) v.items_ (by omega) (by omega) (by omega)
    have hnone : r1[j]? = none := List.getElem?_eq_none (by omega)
    simp [InsertMove, hk, hlt, std_move_backward_within, hr1, readRef, readAt, hnone, bind,
      Except.bind]
  · obtain ⟨s1, r1, hr1, hslen1, hlen1, _⟩ := moveLoop_ok k 0 0 v.items_
      (newArray (if v.capacity_ = 0 then 1 else v.capacity_ * 2))
      (by omega) (by simp [newArray]; split <;> omega)
    have hlen1' : r1.length = (if v.capacity_ = 0 then 1 else v.capacity_ * 2) := by
      simpa [newArray] using hlen1
    have hbig : v.size_ + 1 ≤ r1.length := by rw [hlen1']; split <;> omega
    obtain ⟨s2, r2, hr2, hslen2, _⟩ := moveBackwardLoop_ok (v.size_ - k)
      v.size_ (v.size_ + 1) s1 r1 (by omega) (by omega) (by omega) hbig
    have hnone : s2[j]? = none := List.getElem?_eq_none (by omega)
    simp [InsertMove, hk, hlt, std_move, std_move_backward, hr1, hr2, readRef, readAt, hnone,
      bind, Except.bind]

theorem Erase_run [Element T] (v : SimpleVector T) (k : Nat)
    (hbuf : v.items_.length = v.capacity_) (hinv : v.size_ ≤ v.capacity_) (hk : k < v.size_) :
    ∃ r, Erase v k = Except.ok (r, k) ∧ r.items_.length = r.capacity_ ∧
      r.size_ + 1 = v.size_ ∧ r.capacity_ = v.capacity_ ∧ r.live = v.live.eraseIdx k := by
  have hll := live_length v (by omega)
  obtain ⟨r1, hr1, hlen1, hlo, hmid, _⟩ := moveWithinLoop_ok (v.size_ - (k + 1)) (k + 1) k
    v.items_ (by omega) (by omega)
  refine ⟨⟨r1, v.size_ - 1, v.capacity_⟩, ?_, by simp; omega, by simp; omega, rfl, ?_⟩
  · have hk1 : k + 1 ≤ v.size_ := hk
    simp [Erase, hk, hk1, std_move_within, hr1, bind, Except.bind, pure, Except.pure]
  · apply live_eq_of_getElem?
    · rw [List.length_eraseIdx, if_pos (by omega), hll]
    · intro i hi
      simp only at hi ⊢
      rw [List.getElem?_eraseIdx]
      by_cases h1 : i < k
      · rw [if_pos h1, hlo i h1, live_getElem? v i (by omega)]
      · rw [if_neg h1, hmid i (by omega) (by omega), live_getElem? v (i + 1) (by omega)]
        congr 1; omega

theorem fillRange_ok (buf : List T) (first last : Nat) (x : T) (h : last ≤ buf.length) :
    ∃ r, fillRange buf first last x = Except.ok r ∧ r.length = buf.length ∧
      ∀ i, r[i]? = if first ≤ i ∧ i < last then some x else buf[i]? := by
  by_cases hfl : first ≤ last
  · obtain ⟨r, hr, hlen, hget⟩ := fillLoop_ok (last - first) first x buf (by omega)
    refine ⟨r, hr, hlen, fun i => ?_⟩
    rw [hget i]
    by_cases hi : first ≤ i ∧ i < last
    · rw [if_pos hi, if_pos (by omega)]
    · rw [if_neg hi, if_neg (by omega)]
  · have h0 : last - first = 0 := by omega
    refine ⟨buf, by simp [fillRange, h0, fillLoop], rfl, fun i => ?_⟩
    rw [if_neg (by omega)]

theorem getElem?_take_append_replicate (xs : List T) (n m : Nat) (d : T) (hn : xs.length = m)
    (i : Nat) (hi : i < n) :
    (xs.take n ++ List.replicate (n - m) d)[i]? = if i < m then xs[i]? else some d := by
  have hlen : (xs.take n).length = min n m := by simp [hn]
  rw [List.getElem?_append, hlen]
  by_cases h1 : i < m
  · rw [if_pos (by omega), if_pos h1, List.getElem?_take, if_pos hi]
  · rw [if_neg (by omega), if_neg h1, List.getElem?_replicate, if_pos (by omega)]

theorem Resize_run [Element T] (v : SimpleVector T) (n : Nat)
    (hbuf : v.items_.length = v.capacity_) (hinv : v.size_ ≤ v.capacity_) :
    ∃ r, Resize v n = Except.ok r ∧ r.items_.length = r.capacity_ ∧
      r.size_ = n ∧ r.capacity_ = max v.capacity_ n ∧
      r.live = v.live.take n ++ List.replicate (n - v.size_) (Element.dflt : T) := by
  have hll := live_length v (by omega)
  by_cases heq : n = v.size_
  · refine ⟨v, by simp [Resize, heq, pure, Except.pure], hbuf, heq.symm, by omega, ?_⟩
    subst heq
    rw [← hll]
    simp
  by_cases hlt : n < v.capacity_
  · obtain ⟨r1, hr1, hlen1, hget1⟩ := fillRange_ok v.items_ v.size_ n (Element.dflt : T) (by omega)
    refine ⟨⟨r1, n, v.capacity_⟩, ?_, by simp; omega, rfl, by simp; omega, ?_⟩
    · simp [Resize, heq, hlt, hr1, bind, Except.bind, pure, Except.pure]
    · apply live_eq_of_getElem?
      · simp [hll]; omega
      · intro i hi
        simp only at hi ⊢
        rw [getElem?_take_append_replicate _ _ _ _ hll i hi, hget1 i]
        by_cases h1 : i < v.size_
        · rw [if_neg (by omega), if_pos h1, live_getElem? v i h1]
        · rw [if_pos (by omega), if_neg h1]
  · obtain ⟨r1, hr1, hlen1, hget1⟩ := copyLoop_ok v.items_ v.size_ 0 0
      (ArrayPtr_ofSize n : List T) (by omega) (by simp [ArrayPtr_ofSize]; omega)
    have hlen1' : r1.length = n := by simpa [ArrayPtr_ofSize] using hlen1
    obtain ⟨r2, hr2, hlen2, hget2⟩ := fillRange_ok r1 v.size_ n (Element.dflt : T) (by omega)
    refine ⟨⟨r2, n, n⟩, ?_, by simp; omega, rfl, by simp; omega, ?_⟩
    · simp [Resize, heq, hlt, std_copy, hr1, hr2, bind, Except.bind, pure, Except.pure]
    · apply live_eq_of_getElem?
      · simp [hll]; omega
      · intro i hi
        simp only at hi ⊢
        rw [getElem?_take_append_replicate _ _ _ _ hll i hi, hget2 i]
        by_cases h1 : i < v.size_
        · rw [if_neg (by omega), if_pos h1, hget1 i, if_pos (by omega), live_getElem? v i h1]
          simp
        · rw [if_pos (by omega), if_neg h1]

theorem ofSizeValue_run [Element T] (n : Nat) (x : T) :
    ofSizeValue n x = Except.ok (⟨List.replicate n x, n, n⟩ : SimpleVector T) := by
  obtain ⟨r, hr, hlen, hget⟩ := fillRange_ok (ArrayPtr_ofSize n : List T) 0 n x
    (by simp [ArrayPtr_ofSize])
  have hrep : r = List.replicate n x := by
    apply List.ext_getElem?
    intro i
    rw [hget i, List.getElem?_replicate]
    by_cases hi : i < n
    · rw [if_pos (by omega), if_pos hi]
    · rw [if_neg (by omega), if_neg hi]
      simp [ArrayPtr_ofSize]; omega
  simp [ofSizeValue, hr, hrep, bind, Except.bind, pure, Except.pure]

theorem ofList_run [Element T] (init : List T) :
    ofList init = Except.ok (⟨init, init.length, init.length⟩ : SimpleVector T) := by
  obtain ⟨r, hr, hlen, hget⟩ := copyLoop_ok init init.length 0 0
    (ArrayPtr_ofSize init.length : List T) (by omega) (by simp [ArrayPtr_ofSize])
  have hrep : r = init := by
    apply List.ext_getElem?
    intro i
    rw [hget i]
    by_cases hi : i < init.length
    · rw [if_pos (by omega)]; simp
    · have h0 : init[i]? = none := List.getElem?_eq_none (by omega)
      rw [if_neg (by omega), h0]
      simp [ArrayPtr_ofSize]; omega
  simp [ofList, std_copy, hr, hrep, bind, Except.bind, pure, Except.pure]

theorem copy_run [Element T] (other : SimpleVector T) (h : other.size_ ≤ other.items_.length) :
    copy other = Except.ok (⟨other.live, other.size_, other.size_⟩ : SimpleVector T) := by
  obtain ⟨r, hr, hlen, hget⟩ := copyLoop_ok other.items_ other.size_ 0 0
    (ArrayPtr_ofSize other.size_ : List T) (by omega) (by simp [ArrayPtr_ofSize])
  have hrep : r = other.live := by
    apply List.ext_getElem?
    intro i
    rw [hget i, live, List.getElem?_take]
    by_cases hi : i < other.size_
    · rw [if_pos (by omega), if_pos hi]; simp
    · rw [if_neg (by omega), if_neg hi]
      simp [ArrayPtr_ofSize]; omega
  simp [copy, std_copy, hr, hrep, bind, Except.bind, pure, Except.pure]

theorem Reserve_run [Element T] (v : SimpleVector T) (c : Nat)
    (hbuf : v.items_.length = v.capacity_) (hinv : v.size_ ≤ v.capacity_) :
    ∃ r, Reserve v c = Except.ok r ∧ r.items_.length = r.capacity_ ∧
      (c ≤ v.capacity_ → r = v) ∧ (v.capacity_ < c → r.capacity_ = c) ∧
      r.size_ = v.size_ ∧ r.live = v.live ∧
      (v.capacity_ < c → ∀ i, v.size_ ≤ i → i < c → r.items_[i]? = some Element.dflt) := by
  by_cases hc : c > v.capacity_
  · obtain ⟨r1, hr1, hlen1, hget1⟩ := copyLoop_ok v.items_ v.size_ 0 0
      (List.replicate c (Element.dflt : T)) (by omega) (by simp; omega)
    refine ⟨⟨r1, v.size_, c⟩, ?_, by simpa using hlen1, fun h => by omega, fun _ => rfl, rfl, ?_,
      fun _ i hi1 hi2 => ?_⟩
    · simp [Reserve, hc, ofSize, ofSizeValue_run, std_copy, hr1, swap, ArrayPtr_swap, bind,
        Except.bind, pure, Except.pure]
    · apply live_eq_of_getElem?
      · exact live_length v (by omega)
      · intro i hi
        simp only at hi ⊢
        rw [hget1 i, if_pos (by omega), live_getElem? v i hi]
        simp
    · show r1[i]? = some Element.dflt
      rw [hget1 i, if_neg (by omega), List.getElem?_replicate, if_pos hi2]
  · refine ⟨v, by simp [Reserve, hc, pure, Except.pure], hbuf, fun _ => rfl,
      fun h => by omega, rfl, rfl, fun h => by omega⟩


theorem PushBackMove_eq_PushBack [Element T] (v : SimpleVector T) (x : T) :
    PushBackMove v x = PushBack v x := rfl

theorem index_of_live (v : SimpleVector T) (i : Nat) (a : T) (hi : i < v.size_)
    (h : v.live[i]? = some a) : index v i = Except.ok a := by
  rw [live_getElem? v i hi] at h
  simp [index, hi, readAt, h]

theorem eraseIdx_insertAt (xs : List T) (k : Nat) (x : T) (hk : k ≤ xs.length) :
    (xs.take k ++ x :: xs.drop k).eraseIdx k = xs := by
  apply List.ext_getElem?
  intro i
  rw [List.getElem?_eraseIdx]
  by_cases h1 : i < k
  · rw [if_pos h1, getElem?_insertAt _ _ _ hk, if_pos h1]
  · rw [if_neg h1, getElem?_insertAt _ _ _ hk, if_neg (by omega), if_neg (by omega)]
    congr 1

theorem PopBack_run (v : SimpleVector T) (h : v.size_ ≠ 0) :
    PopBack v = Except.ok ⟨v.items_, v.size_ - 1, v.capacity_⟩ := by
  simp [PopBack, h, pure, Except.pure]

theorem assignAt_run (v : SimpleVector T) (i : Nat) (x : T) (hi : i < v.size_)
    (h : v.size_ ≤ v.items_.length) :
    assignAt v i x = Except.ok ⟨v.items_.set i x, v.size_, v.capacity_⟩ := by
  have hw : i < v.items_.length := by omega
  simp [assignAt, hi, writeAt_of_lt _ hw, bind, Except.bind, pure, Except.pure]

theorem PushBack_doubling [Element T] (v r : SimpleVector T)
    (hinv : v.size_ ≤ v.capacity_) (hd : DoublingInv v) (hs : r.size_ = v.size_ + 1)
    (hc : r.capacity_ = (if v.size_ < v.capacity_ then v.capacity_
        else if v.capacity_ = 0 then 1 else v.capacity_ * 2)) : DoublingInv r := by
  refine ⟨fun h => by omega, fun _ => ?_⟩
  by_cases hlt : v.size_ < v.capacity_
  · rw [if_pos hlt] at hc
    obtain ⟨e, he, _, hmin⟩ := hd.2 (by
      rcases Nat.eq_zero_or_pos v.size_ with h0 | h0
      · have := hd.1 h0; omega
      · exact h0)
    exact ⟨e, by omega, by omega, fun j hj => hmin j (by omega)⟩
  · rw [if_neg hlt] at hc
    by_cases h0 : v.capacity_ = 0
    · rw [if_pos h0] at hc
      refine ⟨0, by simpa using hc, by simp; omega, fun j _ => ?_⟩
      exact Nat.pow_le_pow_right (by omega) (Nat.zero_le j)
    · rw [if_neg h0] at hc
      obtain ⟨e, he, _, _⟩ := hd.2 (by omega)
      have hsz : v.size_ = 2 ^ e := by omega
      refine ⟨e + 1, by rw [hc, he, Nat.pow_succ], by rw [hs, hsz, Nat.pow_succ]; omega,
        fun j hj => ?_⟩
      rw [hs, hsz] at hj
      have hlt2 : 2 ^ e < 2 ^ j := by omega
      have hej : e < j := (Nat.pow_lt_pow_iff_right (by omega)).mp hlt2
      exact Nat.pow_le_pow_right (by omega) hej

theorem pushAll_run [Element T] (vals : List T) : ∀ (v : SimpleVector T),
    v.items_.length = v.capacity_ → v.size_ ≤ v.capacity_ → DoublingInv v →
    ∃ r, pushAll v vals = Except.ok r ∧ r.items_.length = r.capacity_ ∧
      r.size_ ≤ r.capacity_ ∧ DoublingInv r ∧ r.size_ = v.size_ + vals.length ∧
      r.live = v.live ++ vals := by
  induction vals with
  | nil =>
    intro v hbuf hinv hd
    exact ⟨v, rfl, hbuf, hinv, hd, rfl, by simp⟩
  | cons x rest ih =>
    intro v hbuf hinv hd
    obtain ⟨r1, hr1, hbuf1, hs1, hc1, hl1⟩ := PushBack_run v x hbuf hinv
    have hinv1 : r1.size_ ≤ r1.capacity_ := by
      rw [hs1, hc1]; split
      · omega
      · split <;> omega
    obtain ⟨r, hr, hb, hi, hdr, hsr, hlr⟩ := ih r1 hbuf1 hinv1
      (PushBack_doubling v r1 hinv hd hs1 hc1)
    refine ⟨r, ?_, hb, hi, hdr, by simp [hsr, hs1]; omega, by simp [hlr, hl1]⟩
    simp [pushAll, hr1, hr, bind, Except.bind]

theorem Reachable_wf [Element T] (v : SimpleVector T) (h : Reachable v) :
    v.items_.length = v.capacity_ ∧ v.size_ ≤ v.capacity_ := by
  induction h with
  | default_ctor => exact ⟨rfl, Nat.le_refl _⟩
  | reserve_ctor c r h =>
    obtain ⟨r1, h1, hb, hle, hgt, hs, _⟩ := Reserve_run (empty : SimpleVector T) c rfl (Nat.le_refl _)
    rw [ofReserve, h1] at h
    cases h
    refine ⟨hb, ?_⟩
    rw [hs]; exact Nat.zero_le _
  | size_ctor n r h =>
    rw [ofSize, ofSizeValue_run] at h
    cases h
    exact ⟨by simp, Nat.le_refl _⟩
  | size_value_ctor n x r h =>
    rw [ofSizeValue_run] at h
    cases h
    exact ⟨by simp, Nat.le_refl _⟩
  | list_ctor init r h =>
    rw [ofList_run] at h
    cases h
    exact ⟨rfl, Nat.le_refl _⟩
  | copy_ctor other r _ h ih =>
    rw [copy_run other (by omega)] at h
    cases h
    exact ⟨live_length other (by omega), Nat.le_refl _⟩
  | move_ctor_new other _ ih => exact ih
  | move_ctor_source other _ _ => exact ⟨rfl, Nat.le_refl _⟩
  | push_back v x r _ h ih =>
    obtain ⟨r1, h1, hb, hs, hc, _⟩ := PushBack_run v x ih.1 ih.2
    rw [h1] at h
    cases h
    refine ⟨hb, ?_⟩
    rw [hs, hc]; split
    · omega
    · split <;> omega
  | push_back_move v x r _ h ih =>
    obtain ⟨r1, h1, hb, hs, hc, _⟩ := PushBack_run v x ih.1 ih.2
    rw [PushBackMove_eq_PushBack, h1] at h
    cases h
    refine ⟨hb, ?_⟩
    rw [hs, hc]; split
    · omega
    · split <;> omega
  | insert v pos value r it _ h ih =>
    by_cases hk : pos ≤ v.size_
    · cases value with
      | external x =>
        obtain ⟨r1, h1, hb, hs, hc, _⟩ := Insert_run v pos x ih.1 ih.2 hk
        rw [h1] at h
        cases h
        refine ⟨hb, ?_⟩
        rw [hs, hc]; split
        · omega
        · split <;> omega
      | slot j =>
        by_cases hj : j < v.items_.length
        · obtain ⟨r1, y, h1, hb, hs, hc, _⟩ :=
            Insert_ref_run v pos (ValueRef.slot j) ih.1 ih.2 hk hj
          rw [h1] at h
          cases h
          refine ⟨hb, ?_⟩
          rw [hs, hc]; split
          · omega
          · split <;> omega
        · rw [Insert_invalid v pos j ih.1 ih.2 hk (by omega)] at h
          cases h
    · simp [Insert, hk] at h
  | insert_move v pos value r it _ h ih =>
    by_cases hk : pos ≤ v.size_
    · cases value with
      | external x =>
        obtain ⟨r1, h1, hb, hs, hc, _⟩ := InsertMove_run v pos x ih.1 ih.2 hk
        rw [h1] at h
        cases h
        refine ⟨hb, ?_⟩
        rw [hs, hc]; split
        · omega
        · split <;> omega
      | slot j =>
        by_cases hj : j < v.items_.length
        · obtain ⟨r1, h1, hb, hs, hc, _⟩ :=
            InsertMove_ref_run v pos (ValueRef.slot j) ih.1 ih.2 hk hj
          rw [h1] at h
          cases h
          refine ⟨hb, ?_⟩
          rw [hs, hc]; split
          · omega
          · split <;> omega
        · rw [InsertMove_invalid v pos j ih.1 ih.2 hk (by omega)] at h
          cases h
    · simp [InsertMove, hk] at h
  | erase v pos r it _ h ih =>
    by_cases hk : pos < v.size_
    · obtain ⟨r1, h1, hb, hs, hc, _⟩ := Erase_run v pos ih.1 ih.2 hk
      rw [h1] at h
      cases h
      exact ⟨hb, by omega⟩
    · simp [Erase, hk] at h
  | pop_back v r _ h ih =>
    by_cases h0 : v.size_ = 0
    · simp [PopBack, h0] at h
    · rw [PopBack_run v h0] at h
      cases h
      exact ⟨ih.1, by simp; omega⟩
  | resize v n r _ h ih =>
    obtain ⟨r1, h1, hb, hs, hc, _⟩ := Resize_run v n ih.1 ih.2
    rw [h1] at h
    cases h
    exact ⟨hb, by omega⟩
  | reserve v c r _ h ih =>
    obtain ⟨r1, h1, hb, hle, hgt, hs, _⟩ := Reserve_run v c ih.1 ih.2
    rw [h1] at h
    cases h
    refine ⟨hb, ?_⟩
    by_cases hc : c ≤ v.capacity_
    · rw [hle hc]; exact ih.2
    · rw [hs, hgt (by omega)]; omega
  | clear v _ ih => exact ⟨ih.1, Nat.zero_le _⟩
  | assign_at v i x r _ h ih =>
    by_cases hi : i < v.size_
    · rw [assignAt_run v i x hi (by omega)] at h
      cases h
      exact ⟨by simpa using ih.1, ih.2⟩
    · simp [assignAt, hi] at h
  | swap_this v other _ _ _ ih2 => exact ih2
  | swap_other v other _ _ ih1 _ => exact ih1
  | copy_assign v rhs same r _ _ h ih1 ih2 =>
    cases same with
    | true =>
      simp [copyAssign, pure, Except.pure] at h
      rw [← h]; exact ih1
    | false =>
      simp [copyAssign, copy_run rhs (by omega), swap, ArrayPtr_swap, bind, Except.bind, pure,
        Except.pure] at h
      rw [← h]
      exact ⟨live_length rhs (by omega), Nat.le_refl _⟩
  | move_assign_this v rhs same _ _ ih1 ih2 =>
    cases same with
    | true => exact ih1
    | false => exact ih2
  | move_assign_rhs v rhs same _ _ ih1 ih2 =>
    cases same with
    | true => exact ih2
    | false => exact ih1

theorem Insert_end_eq [Element T] (v : SimpleVector T) (x : T) :
    Insert v v.size_ (ValueRef.external x) = (do let r ← PushBack v x; pure (r, v.size_)) := by
  by_cases hlt : v.size_ < v.capacity_
  · simp only [Insert, PushBack, Nat.le_refl, if_true, if_pos hlt, std_copy_backward_within,
      Nat.sub_self, backwardWithinLoop, readRef, bind, Except.bind]
    cases writeAt v.items_ v.size_ x <;> rfl
  · simp only [Insert, PushBack, Nat.le_refl, if_true, if_neg hlt, std_copy_backward,
      Nat.sub_self, copyBackwardLoop, readRef, bind, Except.bind]
    cases std_copy v.items_ 0 v.size_ (newArray (if v.capacity_ = 0 then 1 else v.capacity_ * 2)) 0 with
    | error e => rfl
    | ok arr =>
      simp only []
      cases writeAt arr v.size_ x <;> rfl

theorem InsertMove_end_eq [Element T] (v : SimpleVector T) (x : T)
    (hbuf : v.items_.length = v.capacity_) (hinv : v.size_ ≤ v.capacity_) :
    InsertMove v v.size_ (ValueRef.external x) =
      (do let r ← PushBackMove v x; pure (r, v.size_)) := by
  by_cases hlt : v.size_ < v.capacity_
  · simp only [InsertMove, PushBackMove, Nat.le_refl, if_true, if_pos hlt,
      std_move_backward_within, Nat.sub_self, backwardWithinLoop, readRef, moveFromRef, bind,
      Except.bind]
    cases writeAt v.items_ v.size_ x <;> rfl
  · obtain ⟨s, r, hr, hc, _⟩ := moveLoop_eq_copyLoop v.size_ 0 0 v.items_
      (newArray (if v.capacity_ = 0 then 1 else v.capacity_ * 2))
      (by omega) (by simp [newArray]; split <;> omega)
    simp only [InsertMove, PushBackMove, Nat.le_refl, if_true, if_neg hlt, std_move, std_copy,
      std_move_backward, Nat.sub_self, Nat.sub_zero, Nat.zero_le, hr, hc, moveBackwardLoop,
      readRef, bind, Except.bind]
    cases writeAt r v.size_ x <;> rfl

theorem equalLoop_eq [BEq T] (a b : List T) : ∀ (n i j : Nat),
    i + n ≤ a.length → j + n ≤ b.length →
    equalLoop a b n i j = Except.ok (allEqual ((a.drop i).take n) ((b.drop j).take n)) := by
  intro n
  induction n with
  | zero => intro i j _ _; simp [equalLoop, allEqual]
  | succ n ih =>
    intro i j ha hb
    have hi : i < a.length := by omega
    have hj : j < b.length := by omega
    rw [List.drop_eq_getElem_cons hi, List.drop_eq_getElem_cons hj, List.take_succ_cons,
      List.take_succ_cons]
    simp only [equalLoop, readAt_of_lt hi, readAt_of_lt hj, bind, Except.bind, allEqual]
    by_cases hxy : (a[i] == b[j]) = true
    · simp only [hxy, if_true, Bool.true_and]
      exact ih (i + 1) (j + 1) (by omega) (by omega)
    · have hf : (a[i] == b[j]) = false := by simpa using hxy
      simp [hf]

theorem eq_run [BEq T] (a b : SimpleVector T) (ha : a.size_ ≤ a.items_.length)
    (hb : b.size_ ≤ b.items_.length) :
    eq a b = Except.ok (decide (a.size_ = b.size_) && allEqual a.live b.live) := by
  by_cases hs : a.size_ = b.size_
  · have h := equalLoop_eq a.items_ b.items_ a.size_ 0 0 (by omega) (by omega)
    simp only [List.drop_zero] at h
    simp only [eq, GetSize, hs, bne_self_eq_false, Bool.false_eq_true, if_false, decide_True,
      Bool.true_and, live]
    rw [← hs]; exact h
  · have hne : (a.size_ != b.size_) = true := by simpa using hs
    simp [eq, GetSize, hne, hs]

theorem lexicographicalLoop_eq [LT T] [DecidableRel (fun x y : T => x < y)] (a b : List T)
    (last1 last2 : Nat) (h1 : last1 ≤ a.length) (h2 : last2 ≤ b.length) :
    ∀ (n first1 first2 : Nat), first1 ≤ last1 → first2 ≤ last2 →
    n = min (last1 - first1) (last2 - first2) →
    lexicographicalLoop a b last1 last2 n first1 first2 =
      Except.ok (lexLess ((a.drop first1).take (last1 - first1))
        ((b.drop first2).take (last2 - first2))) := by
  intro n
  induction n with
  | zero =>
    intro first1 first2 hf1 hf2 hn
    by_cases e1 : first1 = last1
    · subst e1
      by_cases e2 : first2 = last2
      · subst e2
        simp [lexicographicalLoop, lexLess]
      · have hj : first2 < b.length := by omega
        have e : last2 - first2 = (last2 - (first2 + 1)) + 1 := by omega
        rw [e, List.drop_eq_getElem_cons hj, List.take_succ_cons]
        simp [lexicographicalLoop, lexLess, e2]
    · have e2 : first2 = last2 := by omega
      subst e2
      have hi : first1 < a.length := by omega
      have e : last1 - first1 = (last1 - (first1 + 1)) + 1 := by omega
      rw [e, List.drop_eq_getElem_cons hi, List.take_succ_cons]
      simp [lexicographicalLoop, lexLess, e1]
  | succ n ih =>
    intro first1 first2 hf1 hf2 hn
    have hi : first1 < a.length := by omega
    have hj : first2 < b.length := by omega
    have e1 : last1 - first1 = (last1 - (first1 + 1)) + 1 := by omega
    have e2 : last2 - first2 = (last2 - (first2 + 1)) + 1 := by omega
    have hrec := ih (first1 + 1) (first2 + 1) (by omega) (by omega) (by omega)
    rw [e1, e2, List.drop_eq_getElem_cons hi, List.drop_eq_getElem_cons hj, List.take_succ_cons,
      List.take_succ_cons]
    simp only [lexicographicalLoop, readAt_of_lt hi, readAt_of_lt hj, bind, Except.bind, lexLess]
    by_cases hxy : a[first1] < b[first2]
    · simp only [hxy, if_true]
    · simp only [hxy, if_false]
      by_cases hyx : b[first2] < a[first1]
      · simp only [hyx, if_true]
      · simp only [hyx, if_false]
        exact hrec

theorem lt_run [LT T] [DecidableRel (fun x y : T => x < y)] (a b : SimpleVector T)
    (ha : a.size_ ≤ a.items_.length) (hb : b.size_ ≤ b.items_.length) :
    lt a b = Except.ok (lexLess a.live b.live) := by
  have h := lexicographicalLoop_eq a.items_ b.items_ a.size_ b.size_ ha hb
    (min (a.size_ - 0) (b.size_ - 0)) 0 0 (Nat.zero_le _) (Nat.zero_le _) rfl
  simpa [lt, begin_, end_, live] using h

theorem lexLess_trichotomy [LT T] [DecidableRel (fun x y : T => x < y)] [BEq T]
    (hasym : ∀ x y : T, x < y → ¬ y < x)
    (hcons : ∀ x y : T, (x == y) = true ↔ (¬ x < y ∧ ¬ y < x)) : ∀ (xs ys : List T),
    (lexLess xs ys = true ∨ (xs.length = ys.length ∧ allEqual xs ys = true) ∨
      lexLess ys xs = true) ∧
    ¬ (lexLess xs ys = true ∧ (xs.length = ys.length ∧ allEqual xs ys = true)) ∧
    ¬ (lexLess xs ys = true ∧ lexLess ys xs = true) ∧
    ¬ ((xs.length = ys.length ∧ allEqual xs ys = true) ∧ lexLess ys xs = true) := by
  intro xs
  induction xs with
  | nil =>
    intro ys
    cases ys with
    | nil => simp [lexLess, allEqual]
    | cons y ys => simp [lexLess]
  | cons x xs ih =>
    intro ys
    cases ys with
    | nil => simp [lexLess]
    | cons y ys =>
      obtain ⟨h1, h2, h3, h4⟩ := ih ys
      by_cases hxy : x < y
      · have hyx : ¬ y < x := hasym x y hxy
        have hne : (x == y) = false := by
          cases hb : (x == y) with
          | false => rfl
          | true => exact absurd hxy ((hcons x y).mp hb).1
        simp [lexLess, allEqual, hxy, hyx, hne]
      · by_cases hyx : y < x
        · have hne : (x == y) = false := by
            cases hb : (x == y) with
            | false => rfl
            | true => exact absurd hyx ((hcons x y).mp hb).2
          simp [lexLess, allEqual, hxy, hyx, hne]
        · have he : (x == y) = true := (hcons x y).mpr ⟨hxy, hyx⟩
          simp only [lexLess, allEqual, hxy, hyx, he, if_false, List.length_cons,
            Nat.add_right_cancel_iff, Bool.true_and]
          exact ⟨h1, h2, h3, h4⟩

theorem agree_of (r s : SimpleVector T) (h1 : r.size_ = s.size_)
    (h2 : r.capacity_ = s.capacity_) (h3 : r.live = s.live) : Agree r s :=
  ⟨h1, h2, h3⟩

theorem live_shrink (v : SimpleVector T) (n c : Nat) (hn : n ≤ v.size_) :
    (⟨v.items_, n, c⟩ : SimpleVector T).live = v.live.take n := by
  simp only [live, List.take_take, Nat.min_eq_left hn]

end OpLemmas
end SimpleVector
end SimpleVectorModel

namespace SimpleVectorModel
section FreeStoreLemmas
variable {T : Type}

theorem view_inv (heap : Heap T) (o : VectorObject) (v : SimpleVector T)
    (h : view heap o = Except.ok v) :
    arrayAt heap o.items_ = Except.ok v.items_ ∧ v.size_ = o.size_ ∧
      v.capacity_ = o.capacity_ := by
  simp only [view, bind, Except.bind, pure, Except.pure] at h
  cases ha : arrayAt heap o.items_ with
  | error e => rw [ha] at h; cases h
  | ok arr =>
    rw [ha] at h
    cases h
    exact ⟨rfl, rfl, rfl⟩

theorem view_of (heap : Heap T) (o : VectorObject) (arr : List T)
    (h : arrayAt heap o.items_ = Except.ok arr) :
    view heap o = Except.ok ⟨arr, o.size_, o.capacity_⟩ := by
  simp [view, h, bind, Except.bind, pure, Except.pure]

theorem arrayAt_inv (heap : Heap T) (a : Option Nat) (arr : List T)
    (h : arrayAt heap a = Except.ok arr) :
    (a = none ∧ arr = []) ∨ (∃ p, a = some p ∧ heap[p]? = some (some arr)) := by
  cases a with
  | none =>
    simp only [arrayAt] at h
    cases h
    exact Or.inl ⟨rfl, rfl⟩
  | some p =>
    refine Or.inr ⟨p, rfl, ?_⟩
    simp only [arrayAt] at h
    split at h
    · next arr2 heq => cases h; exact heq
    · cases h

theorem arrayAt_some (heap : Heap T) (p : Nat) (arr : List T)
    (h : heap[p]? = some (some arr)) : arrayAt heap (some p) = Except.ok arr := by
  simp [arrayAt, h]

/-- An object whose view is defined keeps its view when the free store changes
at other addresses only. -/
theorem view_frame (heap heap2 : Heap T) (o : VectorObject) (v : SimpleVector T)
    (h : view heap o = Except.ok v)
    (hsame : ∀ p, o.items_ = some p → heap2[p]? = heap[p]?) :
    view heap2 o = Except.ok v := by
  obtain ⟨ha, hs, hc⟩ := view_inv heap o v h
  have : arrayAt heap2 o.items_ = Except.ok v.items_ := by
    rcases arrayAt_inv heap o.items_ v.items_ ha with ⟨hn, he⟩ | ⟨p, hp, hget⟩
    · rw [hn, he]; rfl
    · rw [hp]
      exact arrayAt_some heap2 p v.items_ (by rw [hsame p hp, hget])
  rw [view_of heap2 o v.items_ this, ← hs, ← hc]

theorem inPlace_frame (op : SimpleVector T → Except Fault (SimpleVector T)) (heap : Heap T)
    (c src : VectorObject) (cv r source : SimpleVector T)
    (hc : view heap c = Except.ok cv) (hop : op cv = Except.ok r)
    (hlen : r.items_.length = cv.items_.length)
    (hsrc : view heap src = Except.ok source)
    (hsep : ∀ p, c.items_ = some p → src.items_ ≠ some p) :
    ∃ heap2 c2, inPlace op heap c = Except.ok (heap2, c2) ∧ view heap2 c2 = Except.ok r ∧
      view heap2 src = Except.ok source ∧ c2.items_ = c.items_ := by
  refine ⟨store heap c.items_ r.items_, ⟨c.items_, r.size_, r.capacity_⟩, ?_, ?_, ?_, rfl⟩
  · simp [inPlace, hc, hop, bind, Except.bind, pure, Except.pure]
  · obtain ⟨ha, _, _⟩ := view_inv heap c cv hc
    apply view_of
    rcases arrayAt_inv heap c.items_ cv.items_ ha with ⟨hn, he⟩ | ⟨p, hp, hget⟩
    · have : r.items_ = [] := List.eq_nil_of_length_eq_zero (by rw [hlen, he]; rfl)
      simp only [hn, this, store, arrayAt]
    · have hp2 : p < heap.length := by
        rcases Nat.lt_or_ge p heap.length with h | h
        · exact h
        · rw [List.getElem?_eq_none h] at hget; cases hget
      simp only [hp, store]
      exact arrayAt_some _ p _ (by simp [hp2])
  · apply view_frame heap _ src source hsrc
    intro p hp
    cases hci : c.items_ with
    | none => simp [store]
    | some q =>
      have hne : q ≠ p := fun e => hsep q hci (by rw [e]; exact hp)
      simp only [store]
      exact List.getElem?_set_ne hne

theorem reallocating_frame (op : SimpleVector T → Except Fault (SimpleVector T)) (heap : Heap T)
    (c src : VectorObject) (cv r source : SimpleVector T)
    (hc : view heap c = Except.ok cv) (hop : op cv = Except.ok r)
    (hsrc : view heap src = Except.ok source)
    (hsep : ∀ p, c.items_ = some p → src.items_ ≠ some p) :
    ∃ heap2 c2, reallocating op heap c = Except.ok (heap2, c2) ∧ view heap2 c2 = Except.ok r ∧
      view heap2 src = Except.ok source ∧ (∀ p, c2.items_ = some p → src.items_ ≠ some p) := by
  have hsrcp : ∀ p, src.items_ = some p → p < heap.length := by
    intro p hp
    obtain ⟨ha, _, _⟩ := view_inv heap src source hsrc
    rcases arrayAt_inv heap src.items_ source.items_ ha with ⟨hn, _⟩ | ⟨q, hq, hget⟩
    · rw [hn] at hp; cases hp
    · rw [hq] at hp; cases hp
      rcases Nat.lt_or_ge p heap.length with h | h
      · exact h
      · rw [List.getElem?_eq_none h] at hget; cases hget
  have hcp : ∀ q, c.items_ = some q → q < heap.length := by
    intro q hq
    obtain ⟨ha, _, _⟩ := view_inv heap c cv hc
    rcases arrayAt_inv heap c.items_ cv.items_ ha with ⟨hn, _⟩ | ⟨q2, hq2, hget⟩
    · rw [hn] at hq; cases hq
    · rw [hq2] at hq; cases hq
      rcases Nat.lt_or_ge q heap.length with h | h
      · exact h
      · rw [List.getElem?_eq_none h] at hget; cases hget
  refine ⟨release (allocate heap r.items_).1 c.items_,
    ⟨(allocate heap r.items_).2, r.size_, r.capacity_⟩, ?_, ?_, ?_, ?_⟩
  · simp [reallocating, hc, hop, bind, Except.bind, pure, Except.pure]
  · apply view_of
    by_cases h0 : r.items_.length = 0
    · have : r.items_ = [] := List.eq_nil_of_length_eq_zero h0
      rw [this]
      simp [allocate, arrayAt]
    · simp only [allocate, h0, if_false]
      apply arrayAt_some
      cases hci : c.items_ with
      | none => simp [release]
      | some q =>
        have hq := hcp q hci
        simp only [release]
        rw [List.getElem?_set_ne (by omega)]
        simp
  · apply view_frame heap _ src source hsrc
    intro p hp
    have hp2 := hsrcp p hp
    have hstep : (allocate heap r.items_).1[p]? = heap[p]? := by
      by_cases h0 : r.items_.length = 0
      · simp only [allocate, h0, if_true]
      · simp only [allocate, h0, if_false]
        exact List.getElem?_append_left hp2
    cases hci : c.items_ with
    | none => simpa [release] using hstep
    | some q =>
      have hne : q ≠ p := fun e => hsep q hci (by rw [e]; exact hp)
      simp only [release]
      rw [List.getElem?_set_ne hne, hstep]
  · intro p hp hsp
    have hp2 := hsrcp p hsp
    by_cases h0 : r.items_.length = 0
    · simp only [allocate, h0, if_true] at hp
      cases hp
    · simp only [allocate, h0, if_false, Option.some.injEq] at hp
      omega

theorem copyOnHeap_run [Element T] (heap : Heap T) (src : VectorObject)
    (source : SimpleVector T) (hsrc : view heap src = Except.ok source)
    (h : source.size_ ≤ source.items_.length) :
    ∃ heap1 c, copyOnHeap heap src = Except.ok (heap1, c) ∧
      view heap1 c = Except.ok ⟨source.live, source.size_, source.size_⟩ ∧
      view heap1 src = Except.ok source ∧
      (∀ p, c.items_ = some p → src.items_ ≠ some p) := by
  have hsrcp : ∀ p, src.items_ = some p → p < heap.length := by
    intro p hp
    obtain ⟨ha, _, _⟩ := view_inv heap src source hsrc
    rcases arrayAt_inv heap src.items_ source.items_ ha with ⟨hn, _⟩ | ⟨q, hq, hget⟩
    · rw [hn] at hp; cases hp
    · rw [hq] at hp; cases hp
      rcases Nat.lt_or_ge p heap.length with h | h
      · exact h
      · rw [List.getElem?_eq_none h] at hget; cases hget
  refine ⟨(allocate heap source.live).1, ⟨(allocate heap source.live).2, source.size_,
    source.size_⟩, ?_, ?_, ?_, ?_⟩
  · simp [copyOnHeap, hsrc, SimpleVector.copy_run source h, bind, Except.bind, pure,
      Except.pure]
  · apply view_of
    by_cases h0 : source.live.length = 0
    · have : source.live = [] := List.eq_nil_of_length_eq_zero h0
      rw [this]
      simp [allocate, arrayAt]
    · simp only [allocate, h0, if_false]
      apply arrayAt_some
      simp
  · apply view_frame heap _ src source hsrc
    intro p hp
    have hp2 := hsrcp p hp
    by_cases h0 : source.live.length = 0
    · simp only [allocate, h0, if_true]
    · simp only [allocate, h0, if_false]
      exact List.getElem?_append_left hp2
  · intro p hp hsp
    have hp2 := hsrcp p hsp
    by_cases h0 : source.live.length = 0
    · simp only [allocate, h0, if_true] at hp
      cases hp
    · simp only [allocate, h0, if_false, Option.some.injEq] at hp
      omega

theorem applyMutation_frame [Element T] (heap : Heap T) (c src : VectorObject)
    (cv source : SimpleVector T) (m : Mutation T)
    (hc : view heap c = Except.ok cv) (hbuf : cv.items_.length = cv.capacity_)
    (hinv : cv.size_ ≤ cv.capacity_) (hsrc : view heap src = Except.ok source)
    (hsep : ∀ p, c.items_ = some p → src.items_ ≠ some p) (hm : Permitted cv m) :
    ∃ heap2 c2 r, applyMutationOnHeap heap c m = Except.ok (heap2, c2) ∧
      applyMutation cv m = Except.ok r ∧ view heap2 c2 = Except.ok r ∧
      r.items_.length = r.capacity_ ∧ r.size_ ≤ r.capacity_ ∧
      view heap2 src = Except.ok source ∧
      (∀ p, c2.items_ = some p → src.items_ ≠ some p) := by
  obtain ⟨_, hcs, hcc⟩ := view_inv heap c cv hc
  cases m with
  | pushBack x =>
    obtain ⟨r, h1, hb, hs, hcap, _⟩ := SimpleVector.PushBack_run cv x hbuf hinv
    have hwf : r.size_ ≤ r.capacity_ := by
      rw [hs, hcap]; split
      · omega
      · split <;> omega
    by_cases hlt : cv.size_ < cv.capacity_
    · rw [if_pos hlt] at hcap
      obtain ⟨heap2, c2, h2, hv, hsv, hi⟩ := inPlace_frame
        (fun v => SimpleVector.PushBack v x) heap c src cv r source hc h1
        (by rw [hb, hcap, hbuf]) hsrc hsep
      refine ⟨heap2, c2, r, ?_, h1, hv, hb, hwf, hsv, by rw [hi]; exact hsep⟩
      have : c.size_ < c.capacity_ := by omega
      simp only [applyMutationOnHeap, PushBackOnHeap, this, if_true]
      exact h2
    · obtain ⟨heap2, c2, h2, hv, hsv, hs2⟩ := reallocating_frame
        (fun v => SimpleVector.PushBack v x) heap c src cv r source hc h1 hsrc hsep
      refine ⟨heap2, c2, r, ?_, h1, hv, hb, hwf, hsv, hs2⟩
      have : ¬ c.size_ < c.capacity_ := by omega
      simp only [applyMutationOnHeap, PushBackOnHeap, this, if_false]
      exact h2
  | write i x =>
    have hi : i < cv.size_ := hm
    have h1 := SimpleVector.assignAt_run cv i x hi (by omega)
    obtain ⟨heap2, c2, h2, hv, hsv, hi2⟩ := inPlace_frame
      (fun v => SimpleVector.assignAt v i x) heap c src cv _ source hc h1 (by simp) hsrc hsep
    exact ⟨heap2, c2, _, h2, h1, hv, by simpa using hbuf, hinv, hsv, by rw [hi2]; exact hsep⟩
  | resize n =>
    obtain ⟨r, h1, hb, hs, hcap, _⟩ := SimpleVector.Resize_run cv n hbuf hinv
    have hwf : r.size_ ≤ r.capacity_ := by rw [hs, hcap]; omega
    by_cases heq : n = cv.size_
    · have hr : r = cv := by
        have : SimpleVector.Resize cv n = Except.ok cv := by
          simp [SimpleVector.Resize, heq, pure, Except.pure]
        rw [this] at h1
        cases h1; rfl
      subst hr
      refine ⟨heap, c, r, ?_, h1, hc, hb, hwf, hsrc, hsep⟩
      have : n = c.size_ := by omega
      simp [applyMutationOnHeap, ResizeOnHeap, this, pure, Except.pure]
    · have hne : ¬ n = c.size_ := by omega
      by_cases hlt : n < cv.capacity_
      · obtain ⟨heap2, c2, h2, hv, hsv, hi⟩ := inPlace_frame
          (fun v => SimpleVector.Resize v n) heap c src cv r source hc h1
          (by rw [hb, hcap, hbuf]; omega) hsrc hsep
        refine ⟨heap2, c2, r, ?_, h1, hv, hb, hwf, hsv, by rw [hi]; exact hsep⟩
        have : n < c.capacity_ := by omega
        simp only [applyMutationOnHeap, ResizeOnHeap, hne, this, if_true, if_false]
        exact h2
      · obtain ⟨heap2, c2, h2, hv, hsv, hs2⟩ := reallocating_frame
          (fun v => SimpleVector.Resize v n) heap c src cv r source hc h1 hsrc hsep
        refine ⟨heap2, c2, r, ?_, h1, hv, hb, hwf, hsv, hs2⟩
        have : ¬ n < c.capacity_ := by omega
        simp only [applyMutationOnHeap, ResizeOnHeap, hne, this, if_false]
        exact h2
  | erase k =>
    have hk : k < cv.size_ := hm
    obtain ⟨r, h1, hb, hs, hcap, _⟩ := SimpleVector.Erase_run cv k hbuf hinv hk
    have hop : (do let r ← SimpleVector.Erase cv k; pure r.1) = Except.ok r := by
      simp [h1, bind, Except.bind, pure, Except.pure]
    obtain ⟨heap2, c2, h2, hv, hsv, hi⟩ := inPlace_frame
      (fun v => do let r ← SimpleVector.Erase v k; pure r.1) heap c src cv r source hc hop
      (by rw [hb, hcap, hbuf]) hsrc hsep
    exact ⟨heap2, c2, r, h2, hop, hv, hb, by omega, hsv, by rw [hi]; exact hsep⟩
  | clear =>
    obtain ⟨ha, _, _⟩ := view_inv heap c cv hc
    refine ⟨heap, ⟨c.items_, 0, c.capacity_⟩, SimpleVector.Clear cv, rfl, rfl, ?_, hbuf,
      Nat.zero_le _, hsrc, hsep⟩
    rw [view_of heap ⟨c.items_, 0, c.capacity_⟩ cv.items_ ha]
    simp [SimpleVector.Clear, hcc]

theorem applyAll_frame [Element T] (src : VectorObject) (source : SimpleVector T) :
    ∀ (ms : List (Mutation T)) (heap : Heap T) (c : VectorObject) (cv : SimpleVector T),
    view heap c = Except.ok cv → cv.items_.length = cv.capacity_ → cv.size_ ≤ cv.capacity_ →
    view heap src = Except.ok source → (∀ p, c.items_ = some p → src.items_ ≠ some p) →
    PermittedAll cv ms →
    ∃ heap2 c2 r, applyAllOnHeap heap c ms = Except.ok (heap2, c2) ∧
      applyAll cv ms = Except.ok r ∧ view heap2 c2 = Except.ok r ∧
      view heap2 src = Except.ok source := by
  intro ms
  induction ms with
  | nil =>
    intro heap c cv hc _ _ hsrc _ _
    exact ⟨heap, c, cv, rfl, rfl, hc, hsrc⟩
  | cons m ms ih =>
    intro heap c cv hc hbuf hinv hsrc hsep hp
    obtain ⟨heap1, c1, r1, h1, h2, hv, hb1, hi1, hs1, hsep1⟩ :=
      applyMutation_frame heap c src cv source m hc hbuf hinv hsrc hsep hp.1
    obtain ⟨heap2, c2, r, h3, h4, hv2, hs2⟩ :=
      ih heap1 c1 r1 hv hb1 hi1 hs1 hsep1 (hp.2 r1 h2)
    refine ⟨heap2, c2, r, ?_, ?_, hv2, hs2⟩
    · simp [applyAllOnHeap, h1, h3, bind, Except.bind]
    · simp [applyAll, h2, h4, bind, Except.bind]

theorem allEqual_self [BEq T] : ∀ (xs : List T),
    (SimpleVector.allEqual xs xs = true ↔ ∀ x, x ∈ xs → (x == x) = true) := by
  intro xs
  induction xs with
  | nil => simp [SimpleVector.allEqual]
  | cons x xs ih =>
    simp only [SimpleVector.allEqual, Bool.and_eq_true, ih, List.mem_cons]
    constructor
    · rintro ⟨h1, h2⟩ y (hy | hy)
      · rw [hy]; exact h1
      · exact h2 y hy
    · intro h
      exact ⟨h x (Or.inl rfl), fun y hy => h y (Or.inr hy)⟩

end FreeStoreLemmas
end SimpleVectorModel

namespace SimpleVectorModel
namespace SimpleVector
section Claims
variable {T : Type}

/-- C1: `Insert(ConstIterator, const Type&)` reads `value` after it has shifted
the elements when there is room.  On `[1, 2, 3]` held in five slots,
`Insert(begin(), v[1])` is called with the value `2`; the code returns
`[1, 1, 2, 3]`, which is not `take 0 xs ++ [2] ++ drop 0 xs = [2, 1, 2, 3]`,
and so does the overload taking `Type&&` called with `std::move(v[1])`.
The same call with the value `2` held outside the vector gives `[2, 1, 2, 3]`,
and so does the sibling branch for a full vector, which reads `value` from the
old array before the swap. -/
theorem Insert_reads_value_after_shift :
    index (⟨[1, 2, 3, 7, 7], 3, 5⟩ : SimpleVector Int) 1 = Except.ok 2 ∧
    Insert (⟨[1, 2, 3, 7, 7], 3, 5⟩ : SimpleVector Int) 0 (ValueRef.slot 1) =
      Except.ok (⟨[1, 1, 2, 3, 7], 4, 5⟩, 0) ∧
    (⟨[1, 1, 2, 3, 7], 4, 5⟩ : SimpleVector Int).live = [1, 1, 2, 3] ∧
    ([1, 1, 2, 3] : List Int) ≠
      (⟨[1, 2, 3, 7, 7], 3, 5⟩ : SimpleVector Int).live.take 0 ++ [2] ++
        (⟨[1, 2, 3, 7, 7], 3, 5⟩ : SimpleVector Int).live.drop 0 ∧
    Insert (⟨[1, 2, 3, 7, 7], 3, 5⟩ : SimpleVector Int) 0 (ValueRef.external 2) =
      Except.ok (⟨[2, 1, 2, 3, 7], 4, 5⟩, 0) ∧
    Insert (⟨[1, 2, 3], 3, 3⟩ : SimpleVector Int) 0 (ValueRef.slot 1) =
      Except.ok (⟨[2, 1, 2, 3, -1, -1], 4, 6⟩, 0) ∧
    InsertMove (⟨[1, 2, 3, 7, 7], 3, 5⟩ : SimpleVector Int) 0 (ValueRef.slot 1) =
      Except.ok (⟨[1, 1, 2, 3, 7], 4, 5⟩, 0) :=
  ⟨rfl, rfl, rfl, by decide, rfl, rfl, rfl⟩

/-- The contract of both overloads of `Insert` for an argument that is not
stored in the vector: for a vector whose array has `capacity_` slots and whose
size is at most its capacity, and an offset `k ≤ size`, they return normally
with an iterator at offset `k`; the live sequence becomes
`take k xs ++ [x] ++ drop k xs`, the size grows by exactly one, the slot at
offset `k` holds `x`, and the capacity is unchanged when there was room,
otherwise it is `1` if it was `0` and twice the old capacity if it was positive. -/
theorem Insert_contract [Element T] (v : SimpleVector T) (k : Nat) (x : T)
    (hbuf : v.items_.length = v.capacity_) (hinv : v.size_ ≤ v.capacity_) (hk : k ≤ v.size_) :
    (∃ r, Insert v k (ValueRef.external x) = Except.ok (r, k) ∧
      r.live = v.live.take k ++ [x] ++ v.live.drop k ∧
      r.GetSize = v.GetSize + 1 ∧ index r k = Except.ok x ∧
      (v.size_ < v.capacity_ → r.GetCapacity = v.GetCapacity) ∧
      (¬ v.size_ < v.capacity_ → v.capacity_ = 0 → r.GetCapacity = 1) ∧
      (¬ v.size_ < v.capacity_ → 0 < v.capacity_ → r.GetCapacity = 2 * v.GetCapacity)) ∧
    (∃ r, InsertMove v k (ValueRef.external x) = Except.ok (r, k) ∧
      r.live = v.live.take k ++ [x] ++ v.live.drop k ∧
      r.GetSize = v.GetSize + 1 ∧ index r k = Except.ok x ∧
      (v.size_ < v.capacity_ → r.GetCapacity = v.GetCapacity) ∧
      (¬ v.size_ < v.capacity_ → v.capacity_ = 0 → r.GetCapacity = 1) ∧
      (¬ v.size_ < v.capacity_ → 0 < v.capacity_ → r.GetCapacity = 2 * v.GetCapacity)) := by
  constructor
  · obtain ⟨r, h1, _, hs, hc, hl, hx⟩ := Insert_run v k x hbuf hinv hk
    refine ⟨r, h1, by simpa using hl, hs, ?_, fun h => ?_, fun h h0 => ?_, fun h h0 => ?_⟩
    · simp [index, hs, Nat.lt_succ_of_le hk, readAt, hx]
    · simp [GetCapacity, hc, h]
    · simp [GetCapacity, hc, h, h0]
    · have : v.capacity_ ≠ 0 := by omega
      simp [GetCapacity, hc, h, this]; omega
  · obtain ⟨r, h1, _, hs, hc, hl, hx⟩ := InsertMove_run v k x hbuf hinv hk
    refine ⟨r, h1, by simpa using hl, hs, ?_, fun h => ?_, fun h h0 => ?_, fun h h0 => ?_⟩
    · simp [index, hs, Nat.lt_succ_of_le hk, readAt, hx]
    · simp [GetCapacity, hc, h]
    · simp [GetCapacity, hc, h, h0]
    · have : v.capacity_ ≠ 0 := by omega
      simp [GetCapacity, hc, h, this]; omega

/-- An instance of the contract of `Insert`: inserting `9`, held outside the
vector, at offset `1` into `[1, 2, 3]` held in an array of five slots. -/
theorem Insert_contract_witness :
    (([1, 2, 3, 7, 7] : List Int).length = 5 ∧ 3 ≤ 5 ∧ 1 ≤ 3) ∧
    ∃ r, Insert (⟨[1, 2, 3, 7, 7], 3, 5⟩ : SimpleVector Int) 1 (ValueRef.external 9) =
        Except.ok (r, 1) ∧
      r.live = [1, 9, 2, 3] ∧ r.GetSize = 4 :=
  ⟨⟨rfl, by decide, by decide⟩,
    (Insert_contract (⟨[1, 2, 3, 7, 7], 3, 5⟩ : SimpleVector Int) 1 9 rfl
      (by decide) (by decide)).1.imp fun _ h => ⟨h.1, h.2.1, h.2.2.1⟩⟩

/-- C3: starting from the default-constructed vector, any run of `PushBack`
calls with the values `vals` returns normally; afterwards `GetSize()` is the
number of calls, `GetCapacity()` is at least that number, reading index `i`
gives the `i`-th pushed value, and the capacity is `0` when nothing was pushed
and otherwise the least power of two that is at least the number of calls. -/
theorem PushBack_sequence [Element T] (vals : List T) :
    ∃ r, pushAll (empty : SimpleVector T) vals = Except.ok r ∧
      r.GetSize = vals.length ∧ vals.length ≤ r.GetCapacity ∧
      (∀ i a, vals[i]? = some a → index r i = Except.ok a) ∧
      (vals.length = 0 → r.GetCapacity = 0) ∧
      (1 ≤ vals.length → ∃ e, r.GetCapacity = 2 ^ e ∧ vals.length ≤ 2 ^ e ∧
        ∀ j, vals.length ≤ 2 ^ j → 2 ^ e ≤ 2 ^ j) := by
  obtain ⟨r, h1, _, hinv, hd, hs, hl⟩ := pushAll_run vals (empty : SimpleVector T) rfl
    (Nat.le_refl _) ⟨fun _ => rfl, fun h => absurd h (by simp [empty])⟩
  have hs1 : r.size_ = vals.length := by simpa [empty] using hs
  have hl1 : r.live = vals := by simpa [empty, live] using hl
  refine ⟨r, h1, hs1, by simp only [GetCapacity]; omega, fun i a hia => ?_, fun h0 => ?_, fun h1 => ?_⟩
  · have hi : i < vals.length := by
      rcases Nat.lt_or_ge i vals.length with h | h
      · exact h
      · rw [List.getElem?_eq_none h] at hia; cases hia
    exact index_of_live r i a (by omega) (by rw [hl1]; exact hia)
  · exact hd.1 (by omega)
  · rw [← hs1]; exact hd.2 (by omega)

/-- C4: for a vector whose array has `capacity_` slots and whose size is at most
its capacity, and an offset `k < size`, `Erase` returns normally with an
iterator at offset `k`; the live sequence is the old one with the element at
index `k` removed, the size drops by exactly one, the capacity is unchanged, the
returned iterator refers to the element that followed the erased one when
there is one, and it equals `end()` exactly when the last element was erased. -/
theorem Erase_contract [Element T] (v : SimpleVector T) (k : Nat)
    (hbuf : v.items_.length = v.capacity_) (hinv : v.size_ ≤ v.capacity_) (hk : k < v.size_) :
    ∃ r, Erase v k = Except.ok (r, k) ∧
      r.live = v.live.eraseIdx k ∧
      r.GetSize + 1 = v.GetSize ∧ r.GetCapacity = v.GetCapacity ∧
      (k + 1 < v.size_ → ∃ a, index v (k + 1) = Except.ok a ∧ index r k = Except.ok a) ∧
      (k = r.end_ ↔ k + 1 = v.size_) := by
  obtain ⟨r, h1, _, hs, hc, hl⟩ := Erase_run v k hbuf hinv hk
  refine ⟨r, h1, hl, hs, hc, fun hk1 => ?_, by simp only [end_]; omega⟩
  have hlt : k + 1 < v.items_.length := by omega
  refine ⟨v.items_[k + 1], by simp [index, hk1, readAt_of_lt hlt], ?_⟩
  apply index_of_live r k _ (by omega)
  rw [hl, List.getElem?_eraseIdx, if_neg (by omega), live_getElem? v (k + 1) hk1,
    List.getElem?_eq_getElem hlt]

/-- Witness for C4: erasing offset `1` of `[1, 2, 3]` held in an array of five slots. -/
theorem Erase_contract_witness :
    (([1, 2, 3, 7, 7] : List Int).length = 5 ∧ 3 ≤ 5 ∧ 1 < 3) ∧
    ∃ r, Erase (⟨[1, 2, 3, 7, 7], 3, 5⟩ : SimpleVector Int) 1 = Except.ok (r, 1) ∧
      r.live = [1, 3] :=
  ⟨⟨rfl, by decide, by decide⟩,
    (Erase_contract (⟨[1, 2, 3, 7, 7], 3, 5⟩ : SimpleVector Int) 1 rfl
      (by decide) (by decide)).imp fun _ h => ⟨h.1, h.2.1⟩⟩

/-- C5: for a vector whose array has `capacity_` slots and whose size is at most
its capacity, `Resize(n)` returns normally; afterwards the size is `n`, the
elements below `min n size` are the old ones, every element at an index in
`[size, n)` is `Type{}` whatever the slot held before, and the capacity is
`max capacity n`. -/
theorem Resize_contract [Element T] (v : SimpleVector T) (n : Nat)
    (hbuf : v.items_.length = v.capacity_) (hinv : v.size_ ≤ v.capacity_) :
    ∃ r, Resize v n = Except.ok r ∧ r.GetSize = n ∧
      (∀ i, i < min n v.size_ → ∃ a, index v i = Except.ok a ∧ index r i = Except.ok a) ∧
      (∀ i, v.size_ ≤ i → i < n → index r i = Except.ok Element.dflt) ∧
      r.live = v.live.take n ++ List.replicate (n - v.size_) Element.dflt ∧
      r.GetCapacity = max v.GetCapacity n := by
  obtain ⟨r, h1, _, hs, hc, hl⟩ := Resize_run v n hbuf hinv
  have hll := live_length v (by omega)
  refine ⟨r, h1, hs, fun i hi => ?_, fun i hi1 hi2 => ?_, hl, hc⟩
  · have hlt : i < v.items_.length := by omega
    have hiv : i < v.size_ := by omega
    refine ⟨v.items_[i], by simp [index, hiv, readAt_of_lt hlt], ?_⟩
    apply index_of_live r i _ (by omega)
    rw [hl, getElem?_take_append_replicate _ _ _ _ hll i (by omega), if_pos hiv,
      live_getElem? v i hiv, List.getElem?_eq_getElem hlt]
  · apply index_of_live r i _ (by omega)
    rw [hl, getElem?_take_append_replicate _ _ _ _ hll i hi2, if_neg (by omega)]

/-- Witness for C5: growing `[1, 2, 3]` within its five slots, over a stale `7`. -/
theorem Resize_contract_witness :
    (([1, 2, 3, 7, 7] : List Int).length = 5 ∧ 3 ≤ 5) ∧
    ∃ r, Resize (⟨[1, 2, 3, 7, 7], 3, 5⟩ : SimpleVector Int) 4 = Except.ok r ∧
      r.GetSize = 4 ∧ index r 3 = Except.ok 0 :=
  ⟨⟨rfl, by decide⟩,
    (Resize_contract (⟨[1, 2, 3, 7, 7], 3, 5⟩ : SimpleVector Int) 4 rfl (by decide)).imp
      fun _ h => ⟨h.1, h.2.1, h.2.2.2.1 3 (by decide) (by decide)⟩⟩

/-- C6: for a vector whose array has `capacity_` slots and whose size is at most
its capacity, `Reserve(c)` with `c ≤ capacity` returns the vector unchanged, and
with `c > capacity` it returns a vector of capacity exactly `c` that owns an
array of `c` slots, with the same size and the same live elements in the same
order, the slots from `size` on holding `Type{}`. -/
theorem Reserve_contract [Element T] (v : SimpleVector T) (c : Nat)
    (hbuf : v.items_.length = v.capacity_) (hinv : v.size_ ≤ v.capacity_) :
    (c ≤ v.capacity_ → Reserve v c = Except.ok v) ∧
    (v.capacity_ < c → ∃ r, Reserve v c = Except.ok r ∧ r.GetCapacity = c ∧
      r.items_.length = c ∧
      r.GetSize = v.GetSize ∧ r.live = v.live ∧
      (∀ i, i < v.GetSize → index r i = index v i) ∧
      (∀ i, v.GetSize ≤ i → i < c → r.items_[i]? = some Element.dflt)) := by
  obtain ⟨r, h1, hb, hle, hgt, hs, hl, hdead⟩ := Reserve_run v c hbuf hinv
  refine ⟨fun h => ?_, fun h => ⟨r, h1, hgt h, by rw [hb]; exact hgt h, hs, hl, fun i hi => ?_,
    fun i hi1 hi2 => hdead h i hi1 hi2⟩⟩
  · rw [h1, hle h]
  · have hi' : i < v.size_ := hi
    have e : r.items_[i]? = v.items_[i]? := by
      rw [← live_getElem? r i (by omega), ← live_getElem? v i hi', hl]
    simp [index, hs, hi', readAt, e]

/-- Witness for C6: reserving `7` slots for `[1, 2, 3]` held in five slots. -/
theorem Reserve_contract_witness :
    (([1, 2, 3, 7, 7] : List Int).length = 5 ∧ 3 ≤ 5) ∧
    ∃ r, Reserve (⟨[1, 2, 3, 7, 7], 3, 5⟩ : SimpleVector Int) 7 = Except.ok r ∧
      r.GetCapacity = 7 ∧ r.items_.length = 7 ∧ r.GetSize = 3 ∧ r.live = [1, 2, 3] :=
  ⟨⟨rfl, by decide⟩,
    ((Reserve_contract (⟨[1, 2, 3, 7, 7], 3, 5⟩ : SimpleVector Int) 7 rfl (by decide)).2
      (by decide)).imp fun _ h => ⟨h.1, h.2.1, h.2.2.1, h.2.2.2.1, h.2.2.2.2.1⟩⟩

/-- C7: `At(i)` throws the out-of-range error exactly when `i ≥ size`; when
`i < size` it returns what the unchecked `operator[]` returns for `i`, which is
an element whenever the array holds at least `size` slots; and in every case
the vector after the call is the vector before the call. -/
theorem At_contract (v : SimpleVector T) (i : Nat) :
    ((At v i).1 = Except.error Fault.out_of_range ↔ i ≥ v.GetSize) ∧
    (i < v.GetSize → (At v i).1 = index v i) ∧
    (i < v.GetSize → v.size_ ≤ v.items_.length →
      ∃ a, (At v i).1 = Except.ok a ∧ index v i = Except.ok a) ∧
    (At v i).2 = v := by
  by_cases hi : i ≥ v.size_
  · have hn : ¬ i < v.size_ := by omega
    simp [At, GetSize, hi, hn]
  · have hlt : i < v.size_ := by omega
    refine ⟨?_, fun _ => by simp [At, hi, index, hlt], fun _ hlen => ?_, by simp [At, hi]⟩
    · simp only [At, if_neg hi, GetSize]
      constructor
      · intro h
        simp only [readAt] at h
        split at h <;> cases h
      · intro h; exact absurd h hi
    · have hb : i < v.items_.length := by omega
      exact ⟨v.items_[i], by simp [At, hi, readAt_of_lt hb], by simp [index, hlt, readAt_of_lt hb]⟩

/-- C8: `size_ ≤ capacity_` is an invariant of the container.  Every constructor
returns normally with it (the copy and move constructors for a reachable
source); and in every state reachable from construction it holds, every
mutating member called within its precondition returns normally (`Insert` with
any argument that refers to an existing object, a slot of the vector included),
and it holds again in the state the member leaves, also in both objects after
`swap` and the two assignments. -/
theorem size_le_capacity_invariant [Element T] :
    ((empty : SimpleVector T).size_ ≤ (empty : SimpleVector T).capacity_ ∧
      (∀ c, ∃ r : SimpleVector T, ofReserve c = Except.ok r ∧ r.size_ ≤ r.capacity_) ∧
      (∀ n, ∃ r : SimpleVector T, ofSize n = Except.ok r ∧ r.size_ ≤ r.capacity_) ∧
      (∀ n (x : T), ∃ r, ofSizeValue n x = Except.ok r ∧ r.size_ ≤ r.capacity_) ∧
      (∀ init : List T, ∃ r, ofList init = Except.ok r ∧ r.size_ ≤ r.capacity_) ∧
      (∀ other : SimpleVector T, Reachable other →
        (∃ r, copy other = Except.ok r ∧ r.size_ ≤ r.capacity_) ∧
        (moveCtor other).1.size_ ≤ (moveCtor other).1.capacity_ ∧
        (moveCtor other).2.size_ ≤ (moveCtor other).2.capacity_)) ∧
    (∀ v : SimpleVector T, Reachable v →
      v.size_ ≤ v.capacity_ ∧
      (∀ x, ∃ r, PushBack v x = Except.ok r ∧ r.size_ ≤ r.capacity_) ∧
      (∀ x, ∃ r, PushBackMove v x = Except.ok r ∧ r.size_ ≤ r.capacity_) ∧
      (∀ k value, k ≤ v.size_ → v.Admits value →
        ∃ r, Insert v k value = Except.ok (r, k) ∧ r.size_ ≤ r.capacity_) ∧
      (∀ k value, k ≤ v.size_ → v.Admits value →
        ∃ r, InsertMove v k value = Except.ok (r, k) ∧ r.size_ ≤ r.capacity_) ∧
      (∀ k, k < v.size_ → ∃ r, Erase v k = Except.ok (r, k) ∧ r.size_ ≤ r.capacity_) ∧
      (v.IsEmpty = false → ∃ r, PopBack v = Except.ok r ∧ r.size_ ≤ r.capacity_) ∧
      (∀ n, ∃ r, Resize v n = Except.ok r ∧ r.size_ ≤ r.capacity_) ∧
      (∀ c, ∃ r, Reserve v c = Except.ok r ∧ r.size_ ≤ r.capacity_) ∧
      (Clear v).size_ ≤ (Clear v).capacity_ ∧
      (∀ other same, Reachable other →
        (swap v other).1.size_ ≤ (swap v other).1.capacity_ ∧
        (swap v other).2.size_ ≤ (swap v other).2.capacity_ ∧
        (∃ r, copyAssign v other same = Except.ok r ∧ r.size_ ≤ r.capacity_) ∧
        (moveAssign v other same).1.size_ ≤ (moveAssign v other same).1.capacity_ ∧
        (moveAssign v other same).2.size_ ≤ (moveAssign v other same).2.capacity_)) := by
  refine ⟨⟨Nat.le_refl _, fun c => ?_, fun n => ?_, fun n x => ?_, fun init => ?_,
    fun other ho => ⟨?_, ?_, ?_⟩⟩, fun v hv => ?_⟩
  · obtain ⟨r, h1, _⟩ := Reserve_run (empty : SimpleVector T) c rfl (Nat.le_refl _)
    exact ⟨r, h1, (Reachable_wf r (Reachable.reserve_ctor c r h1)).2⟩
  · exact ⟨_, ofSizeValue_run n _, Nat.le_refl _⟩
  · exact ⟨_, ofSizeValue_run n x, Nat.le_refl _⟩
  · exact ⟨_, ofList_run init, Nat.le_refl _⟩
  · have hw := Reachable_wf other ho
    exact ⟨_, copy_run other (by omega), Nat.le_refl _⟩
  · exact (Reachable_wf _ (Reachable.move_ctor_new other ho)).2
  · exact (Reachable_wf _ (Reachable.move_ctor_source other ho)).2
  · have hw := Reachable_wf v hv
    refine ⟨hw.2, fun x => ?_, fun x => ?_, fun k x hk hx => ?_, fun k x hk hx => ?_,
      fun k hk => ?_,
      fun hne => ?_, fun n => ?_, fun c => ?_, ?_, fun other same ho => ⟨?_, ?_, ?_, ?_, ?_⟩⟩
    · obtain ⟨r, h1, _⟩ := PushBack_run v x hw.1 hw.2
      exact ⟨r, h1, (Reachable_wf r (Reachable.push_back v x r hv h1)).2⟩
    · obtain ⟨r, h1, _⟩ := PushBack_run v x hw.1 hw.2
      exact ⟨r, h1, (Reachable_wf r (Reachable.push_back v x r hv h1)).2⟩
    · obtain ⟨r, _, h1, _⟩ := Insert_ref_run v k x hw.1 hw.2 hk hx
      exact ⟨r, h1, (Reachable_wf r (Reachable.insert v k x r k hv h1)).2⟩
    · obtain ⟨r, h1, _⟩ := InsertMove_ref_run v k x hw.1 hw.2 hk hx
      exact ⟨r, h1, (Reachable_wf r (Reachable.insert_move v k x r k hv h1)).2⟩
    · obtain ⟨r, h1, _⟩ := Erase_run v k hw.1 hw.2 hk
      exact ⟨r, h1, (Reachable_wf r (Reachable.erase v k r k hv h1)).2⟩
    · have h0 : v.size_ ≠ 0 := by simpa [IsEmpty] using hne
      exact ⟨_, PopBack_run v h0,
        (Reachable_wf _ (Reachable.pop_back v _ hv (PopBack_run v h0))).2⟩
    · obtain ⟨r, h1, _⟩ := Resize_run v n hw.1 hw.2
      exact ⟨r, h1, (Reachable_wf r (Reachable.resize v n r hv h1)).2⟩
    · obtain ⟨r, h1, _⟩ := Reserve_run v c hw.1 hw.2
      exact ⟨r, h1, (Reachable_wf r (Reachable.reserve v c r hv h1)).2⟩
    · exact (Reachable_wf _ (Reachable.clear v hv)).2
    · exact (Reachable_wf _ (Reachable.swap_this v other hv ho)).2
    · exact (Reachable_wf _ (Reachable.swap_other v other hv ho)).2
    · have hwo := Reachable_wf other ho
      have hex : ∃ r, copyAssign v other same = Except.ok r := by
        cases same with
        | true => exact ⟨v, by simp [copyAssign, pure, Except.pure]⟩
        | false =>
          exact ⟨(swap v ⟨other.live, other.size_, other.size_⟩).1, by
            simp [copyAssign, copy_run other (by omega), bind, Except.bind, pure, Except.pure]⟩
      obtain ⟨r, h1⟩ := hex
      exact ⟨r, h1, (Reachable_wf r (Reachable.copy_assign v other same r hv ho h1)).2⟩
    · exact (Reachable_wf _ (Reachable.move_assign_this v other same hv ho)).2
    · exact (Reachable_wf _ (Reachable.move_assign_rhs v other same hv ho)).2

/-- Witness for C8: the state after `PushBack(1)` on the default-constructed
vector of `int` is reachable and satisfies the invariant. -/
theorem size_le_capacity_invariant_witness :
    Reachable (⟨[1], 1, 1⟩ : SimpleVector Int) ∧
      (⟨[1], 1, 1⟩ : SimpleVector Int).size_ ≤ (⟨[1], 1, 1⟩ : SimpleVector Int).capacity_ :=
  have hr : Reachable (⟨[1], 1, 1⟩ : SimpleVector Int) :=
    Reachable.push_back empty 1 _ Reachable.default_ctor rfl
  ⟨hr, (size_le_capacity_invariant.2 _ hr).1⟩

/-- C9: for a vector whose array has `capacity_` slots and whose size is at most
its capacity, an offset `k ≤ size` and any argument that refers to an existing
object (a slot of the vector included), `Insert` at offset `k` followed by
`Erase` at offset `k` both return normally and restore the live sequence and
the size; the capacity afterwards is at least the original capacity. -/
theorem Insert_then_Erase [Element T] (v : SimpleVector T) (k : Nat) (value : ValueRef T)
    (hbuf : v.items_.length = v.capacity_) (hinv : v.size_ ≤ v.capacity_) (hk : k ≤ v.size_)
    (hval : v.Admits value) :
    ∃ r1 r2, Insert v k value = Except.ok (r1, k) ∧ Erase r1 k = Except.ok (r2, k) ∧
      r2.live = v.live ∧ r2.GetSize = v.GetSize ∧ v.GetCapacity ≤ r2.GetCapacity := by
  obtain ⟨r1, y, h1, hb1, hs1, hc1, hl1, _⟩ := Insert_ref_run v k value hbuf hinv hk hval
  have hinv1 : r1.size_ ≤ r1.capacity_ := by
    rw [hs1, hc1]; split
    · omega
    · split <;> omega
  obtain ⟨r2, h2, _, hs2, hc2, hl2⟩ := Erase_run r1 k hb1 hinv1 (by omega)
  refine ⟨r1, r2, h1, h2, ?_, by simp only [GetSize]; omega, ?_⟩
  · rw [hl2, hl1]
    exact eraseIdx_insertAt _ _ _ (by rw [live_length v (by omega)]; exact hk)
  · simp only [GetCapacity]
    rw [hc2, hc1]; split
    · exact Nat.le_refl _
    · split <;> omega

/-- Witness for C9: inserting `9` at offset `1` of the full vector `[1, 2, 3]` and
erasing there again. -/
theorem Insert_then_Erase_witness :
    (([1, 2, 3] : List Int).length = 3 ∧ 3 ≤ 3 ∧ 1 ≤ 3 ∧
      (⟨[1, 2, 3], 3, 3⟩ : SimpleVector Int).Admits (ValueRef.external 9)) ∧
    ∃ r1 r2, Insert (⟨[1, 2, 3], 3, 3⟩ : SimpleVector Int) 1 (ValueRef.external 9) =
        Except.ok (r1, 1) ∧
      Erase r1 1 = Except.ok (r2, 1) ∧ r2.live = [1, 2, 3] ∧ r2.GetSize = 3 ∧
      3 ≤ r2.GetCapacity :=
  ⟨⟨rfl, by decide, by decide, trivial⟩,
    Insert_then_Erase (⟨[1, 2, 3], 3, 3⟩ : SimpleVector Int) 1 (ValueRef.external 9) rfl
      (by decide) (by decide) trivial⟩

/-- Counterexample to C10 as stated ("for every source vector ... the
copy-constructed vector compares equal (operator==) to the source"): for an
element type whose `==` is not reflexive, the copy of the one-element vector
holding the not-a-number value holds that same value, and `copy == source` is
false. -/
theorem copy_of_nan_not_equal :
    copy (⟨[Dbl.nan], 1, 1⟩ : SimpleVector Dbl) = Except.ok ⟨[Dbl.nan], 1, 1⟩ ∧
    eq (⟨[Dbl.nan], 1, 1⟩ : SimpleVector Dbl) ⟨[Dbl.nan], 1, 1⟩ = Except.ok false :=
  ⟨rfl, rfl⟩

/-- C10 (amended): for a source object on the free store whose array has
`capacity_` slots and whose size `m` is at most its capacity, and any element
type, copy construction returns normally; the copy owns an array at an address
other than that of the source, of exactly `m` slots, has size `m` and capacity
`m` and holds the live elements of the source in the same order; the source
object still has its array, size and capacity.  `copy == source` gives what
`source == source` gives, and that is `true` exactly when `x == x` holds for
every live element `x` of the source.  Any later run of `PushBack`, element
writes, `Resize`, `Erase` and `Clear` on the copy, each called within its
precondition, returns normally, leaves the copy in the state the calls compute
and leaves the array, size and capacity of the source as they were. -/
theorem copy_contract [Element T] [BEq T] (heap : Heap T) (src : VectorObject)
    (source : SimpleVector T) (hsrc : view heap src = Except.ok source)
    (hbuf : source.items_.length = source.capacity_) (hinv : source.size_ ≤ source.capacity_) :
    ∃ heap1 c cv, copyOnHeap heap src = Except.ok (heap1, c) ∧
      view heap1 c = Except.ok cv ∧ copy source = Except.ok cv ∧
      view heap1 src = Except.ok source ∧
      (∀ p, c.items_ = some p → src.items_ ≠ some p) ∧
      cv.GetSize = source.GetSize ∧ cv.GetCapacity = source.GetSize ∧
      cv.items_.length = source.GetSize ∧ cv.live = source.live ∧
      eq cv source = eq source source ∧
      (eq cv source = Except.ok true ↔ ∀ x, x ∈ source.live → (x == x) = true) ∧
      ∀ ms, PermittedAll cv ms →
        ∃ heap2 c2 r, applyAllOnHeap heap1 c ms = Except.ok (heap2, c2) ∧
          applyAll cv ms = Except.ok r ∧ view heap2 c2 = Except.ok r ∧
          view heap2 src = Except.ok source := by
  have hle : source.size_ ≤ source.items_.length := by omega
  have hll := live_length source hle
  obtain ⟨heap1, c, h1, hv, hs, hsep⟩ := copyOnHeap_run heap src source hsrc hle
  have hlive : (⟨source.live, source.size_, source.size_⟩ : SimpleVector T).live =
      source.live := by
    simp [live, List.take_take]
  have e1 := eq_run (⟨source.live, source.size_, source.size_⟩ : SimpleVector T) source
    (by simp only [hll]; exact Nat.le_refl _) hle
  have e2 := eq_run source source hle hle
  rw [hlive] at e1
  simp only [decide_True, Bool.true_and] at e1 e2
  refine ⟨heap1, c, ⟨source.live, source.size_, source.size_⟩, h1, hv, copy_run source hle, hs,
    hsep, rfl, rfl, hll, hlive, by rw [e1, e2], ?_, fun ms hp => ?_⟩
  · rw [e1, ← allEqual_self source.live]
    constructor
    · intro h; exact Except.ok.inj h
    · intro h; rw [h]
  · exact applyAll_frame src source ms heap1 c _ hv hll (Nat.le_refl _) hs hsep hp

/-- Witness for C10: copying `[1, 2, 3]` held in an array of five slots at
address `0`, then `PushBack(9)` and the write `copy[0] = 5` on the copy. -/
theorem copy_contract_witness :
    (view ([some [1, 2, 3, 7, 7]] : Heap Int) ⟨some 0, 3, 5⟩ =
        Except.ok ⟨[1, 2, 3, 7, 7], 3, 5⟩ ∧
      ([1, 2, 3, 7, 7] : List Int).length = 5 ∧ 3 ≤ 5) ∧
    ∃ heap1 c cv, copyOnHeap ([some [1, 2, 3, 7, 7]] : Heap Int) ⟨some 0, 3, 5⟩ =
        Except.ok (heap1, c) ∧
      view heap1 c = Except.ok cv ∧ cv.GetSize = 3 ∧ cv.GetCapacity = 3 ∧
      cv.live = [1, 2, 3] ∧ eq cv ⟨[1, 2, 3, 7, 7], 3, 5⟩ = Except.ok true ∧
      ∃ heap2 c2 r,
        applyAllOnHeap heap1 c [Mutation.pushBack 9, Mutation.write 0 5] =
          Except.ok (heap2, c2) ∧
        view heap2 c2 = Except.ok r ∧ r.live = [5, 2, 3, 9] ∧
        view heap2 ⟨some 0, 3, 5⟩ = Except.ok ⟨[1, 2, 3, 7, 7], 3, 5⟩ := by
  refine ⟨⟨rfl, rfl, by decide⟩, ?_⟩
  obtain ⟨heap1, c, cv, h1, h2, h3, _, _, h4, h5, _, h6, _, h7, h8⟩ :=
    copy_contract ([some [1, 2, 3, 7, 7]] : Heap Int) ⟨some 0, 3, 5⟩
      ⟨[1, 2, 3, 7, 7], 3, 5⟩ rfl rfl (by decide)
  have e : copy (⟨[1, 2, 3, 7, 7], 3, 5⟩ : SimpleVector Int) = Except.ok ⟨[1, 2, 3], 3, 3⟩ := rfl
  rw [e] at h3
  cases h3
  obtain ⟨heap2, c2, r, h9, h10, h11, h12⟩ :=
    h8 [Mutation.pushBack 9, Mutation.write 0 5]
      ⟨trivial, fun r hr => by
        have e2 : applyMutation (⟨[1, 2, 3], 3, 3⟩ : SimpleVector Int) (Mutation.pushBack 9) =
            Except.ok ⟨[1, 2, 3, 9, -1, -1], 4, 6⟩ := rfl
        rw [e2] at hr
        cases hr
        exact ⟨(by decide : (0 : Nat) < 4), fun _ _ => trivial⟩⟩
  have e3 : applyAll (⟨[1, 2, 3], 3, 3⟩ : SimpleVector Int)
      [Mutation.pushBack 9, Mutation.write 0 5] = Except.ok ⟨[5, 2, 3, 9, -1, -1], 4, 6⟩ := rfl
  rw [e3] at h10
  cases h10
  exact ⟨heap1, c, _, h1, h2, h4, h5, h6, h7.2 (by decide), heap2, c2, _, h9, h11, rfl, h12⟩

/-- C11: move construction leaves the source with size `0` and capacity `0` (and
no array), and gives the new vector the prior size, the prior capacity and
the prior elements of the source in the same order: it owns the very array the
source owned, so every index reads what it read in the source. -/
theorem moveCtor_contract (source : SimpleVector T) :
    (moveCtor source).2.GetSize = 0 ∧ (moveCtor source).2.GetCapacity = 0 ∧
    (moveCtor source).2.items_ = [] ∧
    (moveCtor source).1.GetSize = source.GetSize ∧
    (moveCtor source).1.GetCapacity = source.GetCapacity ∧
    (moveCtor source).1.live = source.live ∧
    (moveCtor source).1.items_ = source.items_ ∧
    (∀ i, index (moveCtor source).1 i = index source i) :=
  ⟨rfl, rfl, rfl, rfl, rfl, rfl, rfl, fun _ => rfl⟩

/-- C12: for two distinct objects (`this != &rhs`) move assignment is `swap`:
afterwards the target is what the source was and the source is what the
target was, array, size and capacity; and `swap` applied twice to the same pair
restores both vectors. -/
theorem moveAssign_is_swap (a b : SimpleVector T) :
    moveAssign a b false = swap a b ∧
    (moveAssign a b false).1 = b ∧ (moveAssign a b false).2 = a ∧
    (swap a b).1 = b ∧ (swap a b).2 = a ∧
    swap (swap a b).1 (swap a b).2 = (a, b) :=
  ⟨rfl, rfl, rfl, rfl, rfl, rfl⟩

/-- C15: the vector constructed from a literal list of `k` values has
`GetSize() == GetCapacity() == k`, its live sequence is the list, and reading
index `i < k` yields the `i`-th value of the list; for the list `[a, b, c]` the
indices `0, 1, 2` read `a, b, c` and size and capacity are `3`. -/
theorem ofList_contract [Element T] (init : List T) :
    (∃ r, ofList init = Except.ok r ∧ r.GetSize = init.length ∧
      r.GetCapacity = init.length ∧ r.live = init ∧
      ∀ i a, init[i]? = some a → index r i = Except.ok a) ∧
    (∀ a b c : T, ∃ r, ofList [a, b, c] = Except.ok r ∧ index r 0 = Except.ok a ∧
      index r 1 = Except.ok b ∧ index r 2 = Except.ok c ∧
      r.GetSize = 3 ∧ r.GetCapacity = 3) := by
  refine ⟨⟨_, ofList_run init, rfl, rfl, by simp [live], fun i a hia => ?_⟩,
    fun a b c => ⟨_, ofList_run [a, b, c], rfl, rfl, rfl, rfl, rfl⟩⟩
  have hi : i < init.length := by
    rcases Nat.lt_or_ge i init.length with h | h
    · exact h
    · rw [List.getElem?_eq_none h] at hia; cases hia
  exact index_of_live _ i a hi (by simpa [live] using hia)

/-- C16: on a default-constructed vector of `int`, whatever unassigned slots
hold: `PushBack(1)` gives size 1, capacity 1; `PushBack(2)` gives size 2,
capacity 2; `PushBack(3)` gives size 3, capacity 4; `Insert(begin + 1, 9)` gives
`[1, 9, 2, 3]` with size 4 and capacity 4; `Erase(begin + 1)` gives `[1, 2, 3]`
with size 3 and the capacity the insert left. -/
theorem scenario_push_insert_erase [Element Int] :
    ∃ v1 v2 v3 v4 v5 : SimpleVector Int,
      (empty : SimpleVector Int).GetSize = 0 ∧ (empty : SimpleVector Int).GetCapacity = 0 ∧
      PushBack empty 1 = Except.ok v1 ∧ v1.GetSize = 1 ∧ v1.GetCapacity = 1 ∧
      PushBack v1 2 = Except.ok v2 ∧ v2.GetSize = 2 ∧ v2.GetCapacity = 2 ∧
      PushBack v2 3 = Except.ok v3 ∧ v3.GetSize = 3 ∧ v3.GetCapacity = 4 ∧
      Insert v3 (v3.begin_ + 1) (ValueRef.external 9) = Except.ok (v4, 1) ∧
      v4.live = [1, 9, 2, 3] ∧
      v4.GetSize = 4 ∧ v4.GetCapacity = 4 ∧
      Erase v4 (v4.begin_ + 1) = Except.ok (v5, 1) ∧ v5.live = [1, 2, 3] ∧
      v5.GetSize = 3 ∧ v5.GetCapacity = v4.GetCapacity :=
  ⟨⟨[1], 1, 1⟩, ⟨[1, 2], 2, 2⟩, ⟨[1, 2, 3, Element.indeterminate], 3, 4⟩,
    ⟨[1, 9, 2, 3], 4, 4⟩, ⟨[1, 2, 3, Element.movedFrom 3], 3, 4⟩,
    rfl, rfl, rfl, rfl, rfl, rfl, rfl, rfl, rfl, rfl, rfl, rfl, rfl, rfl, rfl, rfl, rfl, rfl, rfl⟩

/-- C17: for a vector whose array has `capacity_` slots and whose size is at most
its capacity, `Insert(end(), x)` and `PushBack(x)` return the same state (array,
size and capacity, hence the same live sequence), for the copying and for the
moving overloads, and the iterator `Insert` returns is at the offset of the new
last element, which holds `x`. -/
theorem Insert_at_end_is_PushBack [Element T] (v : SimpleVector T) (x : T)
    (hbuf : v.items_.length = v.capacity_) (hinv : v.size_ ≤ v.capacity_) :
    ∃ r, PushBack v x = Except.ok r ∧
      Insert v v.end_ (ValueRef.external x) = Except.ok (r, v.end_) ∧
      PushBackMove v x = Except.ok r ∧
      InsertMove v v.end_ (ValueRef.external x) = Except.ok (r, v.end_) ∧
      r.live = v.live ++ [x] ∧
      v.end_ + 1 = r.GetSize ∧ index r v.end_ = Except.ok x := by
  obtain ⟨r, h1, _, hs, _, hl⟩ := PushBack_run v x hbuf hinv
  have hll := live_length v (by omega)
  refine ⟨r, h1, ?_, h1, ?_, hl, by simp [end_, GetSize, hs], ?_⟩
  · simp [end_, Insert_end_eq, h1, bind, Except.bind, pure, Except.pure]
  · simp [end_, InsertMove_end_eq v x hbuf hinv, PushBackMove_eq_PushBack, h1, bind,
      Except.bind, pure, Except.pure]
  · apply index_of_live r _ x (by simp [end_, hs])
    rw [hl, end_, List.getElem?_append_right (by omega), hll]
    simp

/-- Witness for C17: inserting `9` at `end()` of the full vector `[1, 2, 3]`. -/
theorem Insert_at_end_is_PushBack_witness :
    (([1, 2, 3] : List Int).length = 3 ∧ 3 ≤ 3) ∧
    ∃ r, PushBack (⟨[1, 2, 3], 3, 3⟩ : SimpleVector Int) 9 = Except.ok r ∧
      Insert (⟨[1, 2, 3], 3, 3⟩ : SimpleVector Int) 3 (ValueRef.external 9) =
        Except.ok (r, 3) ∧
      r.live = [1, 2, 3, 9] :=
  ⟨⟨rfl, by decide⟩,
    (Insert_at_end_is_PushBack (⟨[1, 2, 3], 3, 3⟩ : SimpleVector Int) 9 rfl (by decide)).imp
      fun _ h => ⟨h.1, h.2.1, h.2.2.2.2.1⟩⟩

/-- C18: a write to a slot outside the array is a fault of the embedding, and
for a vector whose array has `capacity_` slots, with size at most capacity, an
offset `k ≤ size` and any argument that refers to an existing object (a slot of
the vector included), neither overload of `Insert` faults: every write lands
inside the array it is made to.  That array has as many slots as the capacity
the call leaves, which is the old capacity when there was room and otherwise
`1` for capacity `0` and twice the capacity; the indices `k, …, size` of the
new value and the shifted suffix are all below it, and the size after the call
is at most the capacity after the call.  For the empty vector of capacity `0`
the call returns the one-slot vector holding the value. -/
theorem Insert_in_bounds [Element T] (v : SimpleVector T) (k : Nat) (value : ValueRef T)
    (hbuf : v.items_.length = v.capacity_) (hinv : v.size_ ≤ v.capacity_) (hk : k ≤ v.size_)
    (hval : v.Admits value) :
    (∀ (buf : List T) (i : Nat) (y : T), buf.length ≤ i →
      writeAt buf i y = Except.error Fault.undefined_behaviour) ∧
    (∃ r, Insert v k value = Except.ok (r, k) ∧ r.items_.length = r.GetCapacity ∧
      r.GetCapacity = (if v.size_ < v.capacity_ then v.capacity_
        else if v.capacity_ = 0 then 1 else v.capacity_ * 2) ∧
      (∀ i, k ≤ i → i ≤ v.size_ → i < r.GetCapacity) ∧ r.GetSize ≤ r.GetCapacity) ∧
    (∃ r, InsertMove v k value = Except.ok (r, k) ∧ r.items_.length = r.GetCapacity ∧
      r.GetCapacity = (if v.size_ < v.capacity_ then v.capacity_
        else if v.capacity_ = 0 then 1 else v.capacity_ * 2) ∧
      (∀ i, k ≤ i → i ≤ v.size_ → i < r.GetCapacity) ∧ r.GetSize ≤ r.GetCapacity) ∧
    (∀ x : T, Insert (empty : SimpleVector T) 0 (ValueRef.external x) =
      Except.ok (⟨[x], 1, 1⟩, 0)) ∧
    (∀ x : T, InsertMove (empty : SimpleVector T) 0 (ValueRef.external x) =
      Except.ok (⟨[x], 1, 1⟩, 0)) := by
  have hcap : ∀ r : SimpleVector T, r.size_ = v.size_ + 1 →
      r.capacity_ = (if v.size_ < v.capacity_ then v.capacity_
        else if v.capacity_ = 0 then 1 else v.capacity_ * 2) → r.size_ ≤ r.capacity_ := by
    intro r hs hc
    rw [hs, hc]; split
    · omega
    · split <;> omega
  refine ⟨fun buf i y hi => ?_, ?_, ?_, fun _ => rfl, fun _ => rfl⟩
  · have : ¬ i < buf.length := by omega
    simp [writeAt, this]
  · obtain ⟨r, _, h1, hb, hs, hc, _⟩ := Insert_ref_run v k value hbuf hinv hk hval
    have := hcap r hs hc
    exact ⟨r, h1, hb, hc, fun i _ hi => by simp only [GetCapacity]; omega, this⟩
  · obtain ⟨r, h1, hb, hs, hc, _⟩ := InsertMove_ref_run v k value hbuf hinv hk hval
    have := hcap r hs hc
    exact ⟨r, h1, hb, hc, fun i _ hi => by simp only [GetCapacity]; omega, this⟩

/-- Witness for C18: inserting at offset `1` of the full vector `[1, 2, 3]`. -/
theorem Insert_in_bounds_witness :
    (([1, 2, 3] : List Int).length = 3 ∧ 3 ≤ 3 ∧ 1 ≤ 3 ∧
      (⟨[1, 2, 3], 3, 3⟩ : SimpleVector Int).Admits (ValueRef.external 9)) ∧
    ∃ r, Insert (⟨[1, 2, 3], 3, 3⟩ : SimpleVector Int) 1 (ValueRef.external 9) =
        Except.ok (r, 1) ∧
      r.items_.length = r.GetCapacity ∧ r.GetCapacity = 6 :=
  ⟨⟨rfl, by decide, by decide, trivial⟩,
    (Insert_in_bounds (⟨[1, 2, 3], 3, 3⟩ : SimpleVector Int) 1 (ValueRef.external 9) rfl
      (by decide) (by decide) trivial).2.1.imp fun _ h => ⟨h.1, h.2.1, h.2.2.1⟩⟩

/-- C19: for an element type whose `<` is asymmetric and whose `==` holds exactly
when neither element is less than the other (as for every strict total order
consistent with `==`), and two vectors whose arrays have `capacity_` slots and
whose sizes are at most their capacities: the six comparisons return normally,
`a <= b` is `a < b || a == b`, `a > b` is `b < a`, `a >= b` is `a > b || a == b`,
and exactly one of `a < b`, `a == b`, `b < a` is true. -/
theorem derived_comparisons [LT T] [DecidableRel (fun x y : T => x < y)] [BEq T]
    (a b : SimpleVector T)
    (habuf : a.items_.length = a.capacity_) (hainv : a.size_ ≤ a.capacity_)
    (hbbuf : b.items_.length = b.capacity_) (hbinv : b.size_ ≤ b.capacity_)
    (hasym : ∀ x y : T, x < y → ¬ y < x)
    (hcons : ∀ x y : T, (x == y) = true ↔ (¬ x < y ∧ ¬ y < x)) :
    ∃ l e g : Bool, lt a b = Except.ok l ∧ eq a b = Except.ok e ∧ lt b a = Except.ok g ∧
      le a b = Except.ok (l || e) ∧ gt a b = Except.ok g ∧ ge a b = Except.ok (g || e) ∧
      ((l = true ∧ e = false ∧ g = false) ∨ (l = false ∧ e = true ∧ g = false) ∨
        (l = false ∧ e = false ∧ g = true)) := by
  have ha : a.size_ ≤ a.items_.length := by omega
  have hb : b.size_ ≤ b.items_.length := by omega
  have hl := lt_run a b ha hb
  have hg := lt_run b a hb ha
  have he := eq_run a b ha hb
  have hlen : (a.live.length = b.live.length) = (a.size_ = b.size_) := by
    rw [live_length a ha, live_length b hb]
  obtain ⟨t1, t2, t3, t4⟩ := lexLess_trichotomy hasym hcons a.live b.live
  rw [hlen] at t1 t2 t4
  refine ⟨_, _, _, hl, he, hg, ?_, hg, ?_, ?_⟩
  · simp only [le, hg, bind, Except.bind, pure, Except.pure]
    congr 1
    cases h1 : lexLess a.live b.live <;> cases h2 : lexLess b.live a.live <;>
      cases h3 : allEqual a.live b.live <;> by_cases h4 : a.size_ = b.size_ <;>
      simp_all
  · simp only [ge, hl, bind, Except.bind, pure, Except.pure]
    congr 1
    cases h1 : lexLess a.live b.live <;> cases h2 : lexLess b.live a.live <;>
      cases h3 : allEqual a.live b.live <;> by_cases h4 : a.size_ = b.size_ <;>
      simp_all
  · cases h1 : lexLess a.live b.live <;> cases h2 : lexLess b.live a.live <;>
      cases h3 : allEqual a.live b.live <;> by_cases h4 : a.size_ = b.size_ <;>
      simp_all

/-- Witness for C19: the vectors `[1, 2, 3]` and `[1, 2, 4]` of `int`. -/
theorem derived_comparisons_witness :
    ((([1, 2, 3, 7, 7] : List Int).length = 5 ∧ 3 ≤ 5) ∧
      (([1, 2, 4] : List Int).length = 3 ∧ 3 ≤ 3) ∧
      (∀ x y : Int, x < y → ¬ y < x) ∧
      (∀ x y : Int, (x == y) = true ↔ (¬ x < y ∧ ¬ y < x))) ∧
    ∃ l e g : Bool,
      lt (⟨[1, 2, 3, 7, 7], 3, 5⟩ : SimpleVector Int) ⟨[1, 2, 4], 3, 3⟩ = Except.ok l ∧
      eq (⟨[1, 2, 3, 7, 7], 3, 5⟩ : SimpleVector Int) ⟨[1, 2, 4], 3, 3⟩ = Except.ok e ∧
      lt (⟨[1, 2, 4], 3, 3⟩ : SimpleVector Int) ⟨[1, 2, 3, 7, 7], 3, 5⟩ = Except.ok g ∧
      le (⟨[1, 2, 3, 7, 7], 3, 5⟩ : SimpleVector Int) ⟨[1, 2, 4], 3, 3⟩ = Except.ok (l || e) :=
  have hasym : ∀ x y : Int, x < y → ¬ y < x := fun x y h => by omega
  have hcons : ∀ x y : Int, (x == y) = true ↔ (¬ x < y ∧ ¬ y < x) := fun x y => by
    rw [beq_iff_eq]; omega
  ⟨⟨⟨rfl, by decide⟩, ⟨rfl, by decide⟩, hasym, hcons⟩,
    (derived_comparisons (⟨[1, 2, 3, 7, 7], 3, 5⟩ : SimpleVector Int) ⟨[1, 2, 4], 3, 3⟩ rfl
      (by decide) rfl (by decide) hasym hcons).imp fun _ h => h.imp fun _ h => h.imp
        fun _ h => ⟨h.1, h.2.1, h.2.2.1, h.2.2.2.1⟩⟩

/-- C20: let two vectors whose arrays have `capacity_` slots agree on size,
capacity and the elements at the indices `[0, size)`, the slots from `size` on
being arbitrary in both.  Then `PushBack`, `Insert`, `Erase`, `PopBack`, `Resize`,
`Reserve` (each within its precondition) return normally on both, with the same
returned offset, and the two results agree again on size, capacity and the
elements at the indices below the new size; so do the results of `Clear`; copy
construction gives the same vector; and `==` and `<` against a second such pair
give the same truth value. -/
theorem dead_slots_not_observable [Element T] [BEq T] [LT T]
    [DecidableRel (fun x y : T => x < y)] (v w : SimpleVector T)
    (hv : v.items_.length = v.capacity_) (hw : w.items_.length = w.capacity_)
    (hinv : v.size_ ≤ v.capacity_) (h : Agree v w) :
    (∀ x, ∃ r s, PushBack v x = Except.ok r ∧ PushBack w x = Except.ok s ∧ Agree r s) ∧
    (∀ x, ∃ r s, PushBackMove v x = Except.ok r ∧ PushBackMove w x = Except.ok s ∧ Agree r s) ∧
    (∀ k x, k ≤ v.size_ →
      ∃ r s, Insert v k (ValueRef.external x) = Except.ok (r, k) ∧
        Insert w k (ValueRef.external x) = Except.ok (s, k) ∧ Agree r s) ∧
    (∀ k x, k ≤ v.size_ →
      ∃ r s, InsertMove v k (ValueRef.external x) = Except.ok (r, k) ∧
        InsertMove w k (ValueRef.external x) = Except.ok (s, k) ∧ Agree r s) ∧
    (∀ k, k < v.size_ →
      ∃ r s, Erase v k = Except.ok (r, k) ∧ Erase w k = Except.ok (s, k) ∧ Agree r s) ∧
    (v.IsEmpty = false →
      ∃ r s, PopBack v = Except.ok r ∧ PopBack w = Except.ok s ∧ Agree r s) ∧
    (∀ n, ∃ r s, Resize v n = Except.ok r ∧ Resize w n = Except.ok s ∧ Agree r s) ∧
    (∀ c, ∃ r s, Reserve v c = Except.ok r ∧ Reserve w c = Except.ok s ∧ Agree r s) ∧
    Agree (Clear v) (Clear w) ∧
    (∃ r, copy v = Except.ok r ∧ copy w = Except.ok r) ∧
    (∀ v2 w2 : SimpleVector T, v2.items_.length = v2.capacity_ →
      w2.items_.length = w2.capacity_ → v2.size_ ≤ v2.capacity_ → Agree v2 w2 →
      ∃ e l g, eq v v2 = Except.ok e ∧ eq w w2 = Except.ok e ∧
        lt v v2 = Except.ok l ∧ lt w w2 = Except.ok l ∧
        lt v2 v = Except.ok g ∧ lt w2 w = Except.ok g) := by
  obtain ⟨hs, hc, hl⟩ := h
  have hwinv : w.size_ ≤ w.capacity_ := by omega
  refine ⟨fun x => ?_, fun x => ?_, fun k x hk => ?_, fun k x hk => ?_, fun k hk => ?_,
    fun hne => ?_, fun n => ?_, fun c => ?_, ?_, ?_, fun v2 w2 hv2 hw2 hinv2 h2 => ?_⟩
  · obtain ⟨r, h1, _, rs, rc, rl⟩ := PushBack_run v x hv hinv
    obtain ⟨s, h2, _, ss, sc, sl⟩ := PushBack_run w x hw hwinv
    exact ⟨r, s, h1, h2, agree_of r s (by rw [rs, ss, hs]) (by rw [rc, sc, hs, hc])
      (by rw [rl, sl, hl])⟩
  · obtain ⟨r, h1, _, rs, rc, rl⟩ := PushBack_run v x hv hinv
    obtain ⟨s, h2, _, ss, sc, sl⟩ := PushBack_run w x hw hwinv
    exact ⟨r, s, h1, h2, agree_of r s (by rw [rs, ss, hs]) (by rw [rc, sc, hs, hc])
      (by rw [rl, sl, hl])⟩
  · obtain ⟨r, h1, _, rs, rc, rl, _⟩ := Insert_run v k x hv hinv hk
    obtain ⟨s, h2, _, ss, sc, sl, _⟩ := Insert_run w k x hw hwinv (by omega)
    exact ⟨r, s, h1, h2, agree_of r s (by rw [rs, ss, hs]) (by rw [rc, sc, hs, hc])
      (by rw [rl, sl, hl])⟩
  · obtain ⟨r, h1, _, rs, rc, rl, _⟩ := InsertMove_run v k x hv hinv hk
    obtain ⟨s, h2, _, ss, sc, sl, _⟩ := InsertMove_run w k x hw hwinv (by omega)
    exact ⟨r, s, h1, h2, agree_of r s (by rw [rs, ss, hs]) (by rw [rc, sc, hs, hc])
      (by rw [rl, sl, hl])⟩
  · obtain ⟨r, h1, _, rs, rc, rl⟩ := Erase_run v k hv hinv hk
    obtain ⟨s, h2, _, ss, sc, sl⟩ := Erase_run w k hw hwinv (by omega)
    exact ⟨r, s, h1, h2, agree_of r s (by omega) (by rw [rc, sc, hc]) (by rw [rl, sl, hl])⟩
  · have h0 : v.size_ ≠ 0 := by simpa [IsEmpty] using hne
    have h0w : w.size_ ≠ 0 := by omega
    refine ⟨_, _, PopBack_run v h0, PopBack_run w h0w, agree_of _ _ ?_ hc ?_⟩
    · simp only []; omega
    · rw [live_shrink v _ _ (by omega), live_shrink w _ _ (by omega), hl, hs]
  · obtain ⟨r, h1, _, rs, rc, rl⟩ := Resize_run v n hv hinv
    obtain ⟨s, h2, _, ss, sc, sl⟩ := Resize_run w n hw hwinv
    exact ⟨r, s, h1, h2, agree_of r s (by rw [rs, ss]) (by rw [rc, sc, hc])
      (by rw [rl, sl, hl, hs])⟩
  · obtain ⟨r, h1, _, rle, rgt, rs, rl, _⟩ := Reserve_run v c hv hinv
    obtain ⟨s, h2, _, sle, sgt, ss, sl, _⟩ := Reserve_run w c hw hwinv
    refine ⟨r, s, h1, h2, agree_of r s (by rw [rs, ss, hs]) ?_ (by rw [rl, sl, hl])⟩
    by_cases hcc : c ≤ v.capacity_
    · rw [rle hcc, sle (by omega), hc]
    · rw [rgt (by omega), sgt (by omega)]
  · exact agree_of _ _ rfl hc (by simp [Clear, live])
  · refine ⟨_, copy_run v (by omega), ?_⟩
    rw [copy_run w (by omega), hl, hs]
  · obtain ⟨hs2, hc2, hl2⟩ := h2
    have a1 : v.size_ ≤ v.items_.length := by omega
    have a2 : w.size_ ≤ w.items_.length := by omega
    have a3 : v2.size_ ≤ v2.items_.length := by omega
    have a4 : w2.size_ ≤ w2.items_.length := by omega
    refine ⟨_, _, _, eq_run v v2 a1 a3, ?_, lt_run v v2 a1 a3, ?_, lt_run v2 v a3 a1, ?_⟩
    · rw [eq_run w w2 a2 a4, hl, hl2, hs, hs2]
    · rw [lt_run w w2 a2 a4, hl, hl2]
    · rw [lt_run w2 w a4 a2, hl, hl2]

/-- Witness for C20: `[1, 2, 3]` in five slots, once over stale `7`s and once over
stale `8` and `9`. -/
theorem dead_slots_not_observable_witness :
    (([1, 2, 3, 7, 7] : List Int).length = 5 ∧ ([1, 2, 3, 8, 9] : List Int).length = 5 ∧ 3 ≤ 5 ∧
      Agree (⟨[1, 2, 3, 7, 7], 3, 5⟩ : SimpleVector Int) ⟨[1, 2, 3, 8, 9], 3, 5⟩) ∧
    ∃ r s, Resize (⟨[1, 2, 3, 7, 7], 3, 5⟩ : SimpleVector Int) 4 = Except.ok r ∧
      Resize (⟨[1, 2, 3, 8, 9], 3, 5⟩ : SimpleVector Int) 4 = Except.ok s ∧ Agree r s :=
  have hag : Agree (⟨[1, 2, 3, 7, 7], 3, 5⟩ : SimpleVector Int) ⟨[1, 2, 3, 8, 9], 3, 5⟩ :=
    ⟨rfl, rfl, rfl⟩
  ⟨⟨rfl, rfl, by decide, hag⟩,
    (dead_slots_not_observable (⟨[1, 2, 3, 7, 7], 3, 5⟩ : SimpleVector Int)
      ⟨[1, 2, 3, 8, 9], 3, 5⟩ rfl rfl (by decide) hag).2.2.2.2.2.2.1 4⟩

end Claims
end SimpleVector
end SimpleVectorModel
